import Mathlib

/- Shallow embedding of the Klotski solver (src/src/components/try.cpp).

   A board state is the sequence of 20 cell labels (row-major, 4 columns by
   5 rows), with ' ' marking an empty cell.  The C++ `std::set` and
   `std::map` containers are modelled by sorted duplicate-free lists and
   sorted association lists respectively (iteration order of those
   containers is ascending, insertion of an existing key is a no-op), the
   `while` loops by fuel-indexed recursion, and the fatal assertions and
   the undefined end-iterator dereferences by an `Option` result. -/

abbrev State := List Char

/-- Lexicographic comparison of states, mirroring `operator<` on
`std::array<char,20>`. -/
def stateLt : State → State → Bool
  | [], [] => false
  | [], _ :: _ => true
  | _ :: _, [] => false
  | a :: s, b :: t => if a < b then true else if b < a then false else stateLt s t

/-- Insertion into a sorted duplicate-free list of labels: `std::set<char>::insert`. -/
def insertLabel (c : Char) : List Char → List Char
  | [] => [c]
  | l :: ls => if c < l then c :: l :: ls else if c = l then l :: ls else l :: insertLabel c ls

/-- `GatherLabels`: the set of non-empty labels occurring in a state
(`std::set<char>` = sorted duplicate-free list). -/
def GatherLabels (s : State) : List Char :=
  s.foldl (fun ls c => if c = ' ' then ls else insertLabel c ls) []

/-- The scanning loop of `Normalize`: the second argument is the remaining
cells, the third the remaining (not yet consumed) labels in ascending
order.  The cursor over the sorted label set is the head of the third
argument; exhausting it is the `break`.  The first argument is fuel,
instantiated with the cell count (each loop iteration consumes one cell);
it only makes the recursion structural. -/
def normGo : Nat → List Char → List Char → List Char
  | _, s, [] => s
  | _, [], _ :: _ => []
  | 0, s, _ :: _ => s
  | fuel + 1, c :: rest, l :: ls =>
    if c = ' ' then c :: normGo fuel rest (l :: ls)
    else if c < l then c :: normGo fuel rest (l :: ls)
    else if c = l then c :: normGo fuel rest ls
    else l :: normGo fuel (rest.map fun x => if x = c then l else if x = l then c else x) ls

/-- `Normalize`: relabel the blocks of a state so that labels are first
encountered, scanning row-major, in ascending order of the label set. -/
def Normalize (labels : List Char) (s : State) : State := normGo s.length s labels

inductive Direction
  | LEFT
  | RIGHT
  | TOP
  | BOTTOM
  deriving DecidableEq

/-- Is cell `index` on the `direction` edge of the 4-by-5 board. -/
def IsEdge : Direction → Nat → Bool
  | .LEFT, i => i % 4 == 0
  | .RIGHT, i => i % 4 == 3
  | .TOP, i => decide (i < 4)
  | .BOTTOM, i => decide (i > 15)

/-- Index of the cell adjacent to `index` in the given direction. -/
def Move : Direction → Nat → Nat
  | .LEFT, i => i - 1
  | .RIGHT, i => i + 1
  | .TOP, i => i - 4
  | .BOTTOM, i => i + 4

/-- The opposite of a direction (used to state move reversibility). -/
def opp : Direction → Direction
  | .LEFT => .RIGHT
  | .RIGHT => .LEFT
  | .TOP => .BOTTOM
  | .BOTTOM => .TOP

/-- The indices (ascending) of the cells occupied by `label`: the
`indices` vector computed in `AddNeighbors`. -/
def blockIndices (s : State) (label : Char) : List Nat :=
  (List.range s.length).filter fun i => s.getD i ' ' == label

/-- The `canmove` check of `AddNeighbors`: every cell of the block is off
the `d` edge and the adjacent cell in direction `d` is empty or belongs to
the same block. -/
def canMove (s : State) (label : Char) (d : Direction) : Bool :=
  (blockIndices s label).all fun i =>
    !IsEdge d i && (s.getD (Move d i) ' ' == ' ' || s.getD (Move d i) ' ' == label)

/-- The `newstate` construction of `AddNeighbors`: clear the block's cells,
then write its label into the shifted cells. -/
def applyMove (s : State) (label : Char) (d : Direction) : State :=
  (blockIndices s label).foldl (fun t i => t.set (Move d i) label)
    ((blockIndices s label).foldl (fun t i => t.set i ' ') s)

def dirs : List Direction := [.LEFT, .RIGHT, .TOP, .BOTTOM]

/-- All canonicalized results of feasible one-cell slides from `s`, in the
order `AddNeighbors` generates them (labels ascending, directions
LEFT, RIGHT, TOP, BOTTOM). -/
def moveTargets (labels : List Char) (s : State) : List State :=
  labels.flatMap fun label => dirs.filterMap fun d =>
    if canMove s label d then some (Normalize labels (applyMove s label d)) else none

/-- `IsSolved`: cells 13, 14, 17 and 18 hold one common non-empty label. -/
def IsSolved (s : State) : Bool :=
  decide (s.getD 13 ' ' = s.getD 14 ' ' ∧ s.getD 14 ' ' = s.getD 17 ' ' ∧
    s.getD 17 ' ' = s.getD 18 ' ' ∧ s.getD 18 ' ' ≠ ' ')

/-- Lookup in an association list keyed by states (`std::map::find`). -/
def lookupAL {α : Type} : List (State × α) → State → Option α
  | [], _ => none
  | (k, v) :: m, x => if x = k then some v else lookupAL m x

/-- Insertion of a fresh key into a sorted association list
(`std::map::insert` when the key is absent). -/
def insertAL {α : Type} (k : State) (v : α) : List (State × α) → List (State × α)
  | [] => [(k, v)]
  | e :: m => if stateLt k e.1 then (k, v) :: e :: m else e :: insertAL k v m

def keysAL {α : Type} (m : List (State × α)) : List State := m.map (·.1)

abbrev Graph := List (State × List State)

abbrev SolMap := List (State × State)

/-- Insertion into a sorted duplicate-free list of states
(`std::set<State>::insert`). -/
def insertSt (v : State) : List State → List State
  | [] => [v]
  | w :: ws => if stateLt v w then v :: w :: ws else if v = w then w :: ws else w :: insertSt v ws

/-- One iteration of the graph builder: pop the least pending state, insert
it as a vertex (`none` models the fatal `assert(success)` if it is already
one), record its canonicalized feasible moves as its neighbor set, and add
those results that are not yet vertices to the pending set. -/
def addNeighbors (labels : List Char) (g : Graph) (w : List State) : Option (Graph × List State) :=
  match w with
  | [] => none
  | current :: wrest =>
    if (lookupAL g current).isSome then none
    else
      some (insertAL current ((moveTargets labels current).foldl (fun acc n => insertSt n acc) []) g,
        (moveTargets labels current).foldl
          (fun acc n => if n = current ∨ (lookupAL g n).isSome then acc else insertSt n acc) wrest)

/-- The `while (!states_to_explore.empty())` loop of `GenerateGraph`,
with fuel. -/
def genLoop (labels : List Char) : Nat → Graph → List State → Option Graph
  | 0, g, w => if w = [] then some g else none
  | fuel + 1, g, w =>
    match w with
    | [] => some g
    | _ :: _ =>
      match addNeighbors labels g w with
      | none => none
      | some (g2, w2) => genLoop labels fuel g2 w2

/-- `GenerateGraph`: gather the labels, normalize the (by-value copy of
the) initial state, and explore until the pending set is empty. -/
def GenerateGraph (initial : State) (fuel : Nat) : Option Graph :=
  genLoop (GatherLabels initial) fuel [] [Normalize (GatherLabels initial) initial]

/-- Zero or more `addNeighbors` iterations: every intermediate
configuration of a `GenerateGraph` run is reachable this way. -/
inductive GenSteps (labels : List Char) : Graph → List State → Graph → List State → Prop
  | refl (g : Graph) (w : List State) : GenSteps labels g w g w
  | tail {g w g1 w1 g2 w2} : GenSteps labels g w g1 w1 →
      addNeighbors labels g1 w1 = some (g2, w2) → GenSteps labels g w g2 w2

/-- The states reachable from `s0` under canonicalized feasible moves. -/
inductive Reach (labels : List Char) (s0 : State) : State → Prop
  | base : Reach labels s0 s0
  | step {s t : State} : Reach labels s0 s → t ∈ moveTargets labels s → Reach labels s0 t

/-- The neighbor set of a vertex (empty for non-vertices). -/
def adjL (g : Graph) (v : State) : List State := (lookupAL g v).getD []

/-- `PathToGoal g v n`: there is a walk of `n` edges in `g` from `v` to a
solved vertex.  The least such `n` is the graph distance from `v` to the
nearest goal. -/
inductive PathToGoal (g : Graph) : State → Nat → Prop
  | goal {v} : v ∈ keysAL g → IsSolved v = true → PathToGoal g v 0
  | step {v w n} : w ∈ adjL g v → PathToGoal g w n → PathToGoal g v (n + 1)

/-- Processing of one neighbor `n` of the popped vertex `u` in `Solve`:
first insertion wins, a later rediscovery is a no-op. -/
def relaxOne (u : State) (p : SolMap × List State) (n : State) : SolMap × List State :=
  match lookupAL p.1 n with
  | some _ => p
  | none => (insertAL n u p.1, p.2 ++ [n])

/-- The BFS loop of `Solve`, with fuel.  `none` on a vertex whose neighbor
set is missing from the graph (the C++ dereferences the end iterator). -/
def solveLoop (g : Graph) : Nat → SolMap → List State → Option SolMap
  | 0, sol, q => if q = [] then some sol else none
  | fuel + 1, sol, q =>
    match q with
    | [] => some sol
    | u :: q1 =>
      match lookupAL g u with
      | none => none
      | some ns =>
        solveLoop g fuel (ns.foldl (relaxOne u) (sol, q1)).1 (ns.foldl (relaxOne u) (sol, q1)).2

/-- The solved vertices of the graph, in key order: the BFS seeds. -/
def solveSeeds (g : Graph) : List State := (keysAL g).filter fun v => IsSolved v

/-- The initial next-step map: every solved vertex maps to itself. -/
def solveInit (g : Graph) : SolMap :=
  (solveSeeds g).foldl (fun m v => if (lookupAL m v).isSome then m else insertAL v v m) []

/-- `Solve`: multi-source BFS from the solved vertices; `none` models the
fatal `assert(solution.size() == graph.size())`. -/
def Solve (g : Graph) (fuel : Nat) : Option SolMap :=
  match solveLoop g fuel (solveInit g) (solveSeeds g) with
  | none => none
  | some sol => if sol.length = g.length then some sol else none

/-- The loop of `Print`: emit the current state, follow the map until a
state maps to itself.  `none` models the unchecked `find` (the C++
dereferences the end iterator when the lookup fails). -/
def printGo (sol : SolMap) : Nat → State → Option (List State)
  | 0, _ => none
  | fuel + 1, cur =>
    match lookupAL sol cur with
    | none => none
    | some nxt =>
      if nxt = cur then some [cur]
      else
        match printGo sol fuel nxt with
        | none => none
        | some rest => some (cur :: rest)

/-- `Print`: the sequence of states emitted starting from `initial`. -/
def Print (initial : State) (sol : SolMap) (fuel : Nat) : Option (List State) :=
  printGo sol fuel initial

/-- One application of the next-step map (`it = solution.find(it->second)`). -/
def nextS (sol : SolMap) (v : State) : State := (lookupAL sol v).getD v

/-- Iterated application of the next-step map. -/
def iterSol (sol : SolMap) : Nat → State → State
  | 0, v => v
  | n + 1, v => iterSol sol n (nextS sol v)

/-- The Set 1 Level 19 starting arrangement hard-coded in `main`. -/
def l19 : State :=
  ['1', '2', '2', '3',
   '1', '2', '2', '3',
   '4', '5', '6', '7',
   '8', '9', '9', 'a',
   '8', ' ', ' ', 'a']

/-- A small demonstration instance: a single 2-by-2 block. -/
def demo0 : State :=
  ['1', '1', ' ', ' ',
   '1', '1', ' ', ' ',
   ' ', ' ', ' ', ' ',
   ' ', ' ', ' ', ' ',
   ' ', ' ', ' ', ' ']

def demoL : List Char := GatherLabels demo0

def demoG : Graph := (genLoop demoL 15 [] [Normalize demoL demo0]).getD []

def demoSol : SolMap := (Solve demoG 15).getD []


/-- A tiny state used to exercise the confluence theorem. -/
def c1wS : State := ['1', '2', ' ', '2']

/-- The invariant maintained by `GenerateGraph` between iterations:
`g` is the graph so far, `w` the pending set, `s0` the canonicalized
initial state. -/
structure GInv (labels : List Char) (s0 : State) (g : Graph) (w : List State) : Prop where
  keys_nodup : (keysAL g).Nodup
  w_sorted : List.Pairwise (fun a b => stateLt a b = true) w
  disj : ∀ v ∈ keysAL g, v ∉ w
  adj_eq : ∀ v ns, lookupAL g v = some ns → ∀ x, x ∈ ns ↔ x ∈ moveTargets labels v
  succ_closed : ∀ v ∈ keysAL g, ∀ t ∈ moveTargets labels v, t ∈ keysAL g ∨ t ∈ w
  reach_keys : ∀ v ∈ keysAL g, Reach labels s0 v
  reach_w : ∀ v ∈ w, Reach labels s0 v
  canon_keys : ∀ v ∈ keysAL g, Normalize labels v = v
  canon_w : ∀ v ∈ w, Normalize labels v = v
  chars_keys : ∀ v ∈ keysAL g, ∀ c ∈ v, c = ' ' ∨ c ∈ labels
  chars_w : ∀ v ∈ w, ∀ c ∈ v, c = ' ' ∨ c ∈ labels
  len_keys : ∀ v ∈ keysAL g, v.length = 20
  len_w : ∀ v ∈ w, v.length = 20
  start_mem : s0 ∈ keysAL g ∨ s0 ∈ w

/-- The invariant of the BFS loop of `Solve` between pops.  `D` is the
BFS layer of each assigned vertex. -/
structure BInv (g : Graph) (D : State → Nat) (sol : SolMap) (q : List State) : Prop where
  dom_nodup : (keysAL sol).Nodup
  dom_sub : ∀ v ∈ keysAL sol, v ∈ keysAL g
  goal_in : ∀ v ∈ keysAL g, IsSolved v = true → v ∈ keysAL sol
  q_sub : ∀ v ∈ q, v ∈ keysAL sol
  q_nodup : q.Nodup
  map_goal : ∀ v ∈ keysAL sol, IsSolved v = true → lookupAL sol v = some v ∧ D v = 0
  map_step : ∀ v ∈ keysAL sol, IsSolved v = false → ∃ u, lookupAL sol v = some u ∧
    u ∈ keysAL sol ∧ v ∈ adjL g u ∧ D v = D u + 1
  path : ∀ v ∈ keysAL sol, PathToGoal g v (D v)
  q_mono : List.Pairwise (fun a b => D a ≤ D b) q
  q_width : ∀ a ∈ q, ∀ b ∈ q, D b ≤ D a + 1
  proc_closed : ∀ v ∈ keysAL sol, v ∉ q → ∀ x ∈ adjL g v, x ∈ keysAL sol ∧ D x ≤ D v + 1
  proc_below : ∀ v ∈ keysAL sol, v ∉ q → ∀ u ∈ q, D v ≤ D u

/-- The invariant during the neighbor fold of one popped vertex `u`. -/
structure MInv (g : Graph) (u : State) (D : State → Nat) (sol : SolMap) (q : List State) :
    Prop where
  dom_nodup : (keysAL sol).Nodup
  dom_sub : ∀ v ∈ keysAL sol, v ∈ keysAL g
  goal_in : ∀ v ∈ keysAL g, IsSolved v = true → v ∈ keysAL sol
  q_sub : ∀ v ∈ q, v ∈ keysAL sol
  q_nodup : q.Nodup
  u_dom : u ∈ keysAL sol
  u_notq : u ∉ q
  map_goal : ∀ v ∈ keysAL sol, IsSolved v = true → lookupAL sol v = some v ∧ D v = 0
  map_step : ∀ v ∈ keysAL sol, IsSolved v = false → ∃ w, lookupAL sol v = some w ∧
    w ∈ keysAL sol ∧ v ∈ adjL g w ∧ D v = D w + 1
  path : ∀ v ∈ keysAL sol, PathToGoal g v (D v)
  q_mono : List.Pairwise (fun a b => D a ≤ D b) q
  q_lo : ∀ a ∈ q, D u ≤ D a
  q_hi : ∀ a ∈ q, D a ≤ D u + 1
  proc_closed : ∀ v ∈ keysAL sol, v ∉ q → v ≠ u → ∀ x ∈ adjL g v,
    x ∈ keysAL sol ∧ D x ≤ D v + 1
  proc_below : ∀ v ∈ keysAL sol, v ∉ q → v ≠ u → D v ≤ D u

/- ### Toolkit: the strict lexicographic order on states -/

theorem stateLt_irrefl (s : State) : stateLt s s = false := by
  induction s with
  | nil => rfl
  | cons a t ih => simp [stateLt, lt_irrefl, ih]

theorem stateLt_trans : ∀ (a b c : State),
    stateLt a b = true → stateLt b c = true → stateLt a c = true := by
  intro a
  induction a with
  | nil =>
    intro b c hab hbc
    cases b with
    | nil => simp [stateLt] at hab
    | cons y b =>
      cases c with
      | nil => simp [stateLt] at hbc
      | cons z c => simp [stateLt]
  | cons x a ih =>
    intro b c hab hbc
    cases b with
    | nil => simp [stateLt] at hab
    | cons y b =>
      cases c with
      | nil => simp [stateLt] at hbc
      | cons z c =>
        simp only [stateLt] at hab hbc ⊢
        by_cases hxy : x < y
        · by_cases hyz : y < z
          · simp [lt_trans hxy hyz]
          · by_cases hzy : z < y
            · simp [hyz, hzy] at hbc
            · have hyz2 : y = z := le_antisymm (not_lt.mp hzy) (not_lt.mp hyz)
              have : x < z := hyz2 ▸ hxy
              simp [this]
        · by_cases hyx : y < x
          · simp [hxy, hyx] at hab
          · have hxy2 : x = y := le_antisymm (not_lt.mp hyx) (not_lt.mp hxy)
            subst hxy2
            simp only [hxy, if_neg, lt_irrefl, if_false] at hab
            by_cases hxz : x < z
            · simp [hxz]
            · by_cases hzx : z < x
              · simp [hxz, hzx] at hbc
              · have hxz2 : x = z := le_antisymm (not_lt.mp hzx) (not_lt.mp hxz)
                subst hxz2
                simp only [lt_irrefl, if_false] at hbc ⊢
                exact ih b c hab hbc

theorem stateLt_total : ∀ (a b : State),
    stateLt a b = true ∨ stateLt b a = true ∨ a = b := by
  intro a
  induction a with
  | nil =>
    intro b
    cases b with
    | nil => right; right; rfl
    | cons y b => left; simp [stateLt]
  | cons x a ih =>
    intro b
    cases b with
    | nil => right; left; simp [stateLt]
    | cons y b =>
      rcases lt_trichotomy x y with h | h | h
      · left; simp [stateLt, h]
      · subst h
        rcases ih b with h2 | h2 | h2
        · left; simp [stateLt, lt_irrefl, h2]
        · right; left; simp [stateLt, lt_irrefl, h2]
        · right; right; rw [h2]
      · right; left; simp [stateLt, h]

/- ### Toolkit: sorted state sets (`std::set<State>`) -/

theorem mem_insertSt {x v : State} : ∀ {l : List State}, x ∈ insertSt v l ↔ x = v ∨ x ∈ l := by
  intro l
  induction l with
  | nil => simp [insertSt]
  | cons w ws ih =>
    simp only [insertSt]
    split_ifs with h1 h2
    · simp [List.mem_cons]
    · subst h2
      simp [List.mem_cons]
    · simp only [List.mem_cons, ih]
      tauto

theorem insertSt_sorted {v : State} : ∀ {l : List State},
    List.Pairwise (fun a b => stateLt a b = true) l →
    List.Pairwise (fun a b => stateLt a b = true) (insertSt v l) := by
  intro l
  induction l with
  | nil => simp [insertSt]
  | cons w ws ih =>
    intro h
    rcases List.pairwise_cons.mp h with ⟨hw, hws⟩
    simp only [insertSt]
    split_ifs with h1 h2
    · refine List.pairwise_cons.mpr ⟨?_, h⟩
      intro x hx
      rcases List.mem_cons.mp hx with rfl | hx2
      · exact h1
      · exact stateLt_trans v w x h1 (hw x hx2)
    · subst h2
      exact h
    · have hwv : stateLt w v = true := by
        rcases stateLt_total v w with h3 | h3 | h3
        · exact absurd h3 h1
        · exact h3
        · exact absurd h3 h2
      refine List.pairwise_cons.mpr ⟨?_, ih hws⟩
      intro x hx
      rcases mem_insertSt.mp hx with rfl | hx2
      · exact hwv
      · exact hw x hx2

theorem sorted_head_not_mem {a : State} {l : List State}
    (h : List.Pairwise (fun a b => stateLt a b = true) (a :: l)) : a ∉ l := by
  intro hmem
  have := (List.pairwise_cons.mp h).1 a hmem
  rw [stateLt_irrefl] at this
  exact Bool.false_ne_true this

/- ### Toolkit: association lists (`std::map`) -/

theorem keysAL_nil {α : Type} : keysAL ([] : List (State × α)) = [] := rfl

theorem keysAL_cons {α : Type} (e : State × α) (m : List (State × α)) :
    keysAL (e :: m) = e.1 :: keysAL m := rfl

theorem lookupAL_isSome_iff {α : Type} : ∀ {m : List (State × α)} {x : State},
    (lookupAL m x).isSome = true ↔ x ∈ keysAL m := by
  intro m
  induction m with
  | nil => simp [lookupAL, keysAL_nil]
  | cons e m ih =>
    intro x
    obtain ⟨k, v⟩ := e
    by_cases h : x = k
    · subst h
      simp [lookupAL, keysAL_cons, List.mem_cons]
    · have h1 : lookupAL ((k, v) :: m) x = lookupAL m x := by
        simp [lookupAL, h]
      rw [h1, ih]
      simp [keysAL_cons, List.mem_cons, h]

theorem lookupAL_none_iff {α : Type} {m : List (State × α)} {x : State} :
    lookupAL m x = none ↔ x ∉ keysAL m := by
  rw [← lookupAL_isSome_iff]
  cases lookupAL m x <;> simp

theorem lookupAL_mem {α : Type} : ∀ {m : List (State × α)} {x : State} {y : α},
    lookupAL m x = some y → (x, y) ∈ m := by
  intro m
  induction m with
  | nil => intro x y h; simp [lookupAL] at h
  | cons e m ih =>
    intro x y h
    obtain ⟨k, v⟩ := e
    simp only [lookupAL] at h
    split_ifs at h with h1
    · subst h1
      injection h with h
      subst h
      exact List.mem_cons_self _ _
    · exact List.mem_cons_of_mem _ (ih h)

theorem mem_keysAL_of_lookup {α : Type} {m : List (State × α)} {x : State} {y : α}
    (h : lookupAL m x = some y) : x ∈ keysAL m := by
  rw [← lookupAL_isSome_iff, h]
  rfl

theorem mem_keysAL {α : Type} {m : List (State × α)} {x : State} :
    x ∈ keysAL m ↔ ∃ y, (x, y) ∈ m := by
  simp only [keysAL, List.mem_map]
  constructor
  · rintro ⟨⟨k, v⟩, hm, rfl⟩
    exact ⟨v, hm⟩
  · rintro ⟨y, hy⟩
    exact ⟨(x, y), hy, rfl⟩

theorem lookupAL_insertAL {α : Type} {k : State} {v : α} : ∀ {m : List (State × α)},
    k ∉ keysAL m → ∀ x,
    lookupAL (insertAL k v m) x = if x = k then some v else lookupAL m x := by
  intro m
  induction m with
  | nil => intro _ x; rfl
  | cons e m ih =>
    intro hk x
    obtain ⟨k1, v1⟩ := e
    have hk1 : k ∉ keysAL m := fun h => hk (List.mem_cons_of_mem _ h)
    have hkk1 : k ≠ k1 := by
      intro h
      apply hk
      rw [h]
      exact List.mem_cons_self _ _
    by_cases h1 : stateLt k k1 = true
    · rw [show insertAL k v ((k1, v1) :: m) = (k, v) :: (k1, v1) :: m from by
        simp [insertAL, h1]]
      rfl
    · rw [show insertAL k v ((k1, v1) :: m) = (k1, v1) :: insertAL k v m from by
        simp [insertAL, h1]]
      show (if x = k1 then some v1 else lookupAL (insertAL k v m) x) = _
      by_cases h2 : x = k1
      · rw [if_pos h2, if_neg (show ¬ x = k from fun hh => hkk1 (hh.symm.trans h2))]
        simp [lookupAL, h2]
      · rw [if_neg h2, ih hk1 x]
        by_cases h3 : x = k
        · rw [if_pos h3, if_pos h3]
        · rw [if_neg h3, if_neg h3]
          show lookupAL m x = lookupAL ((k1, v1) :: m) x
          rw [show lookupAL ((k1, v1) :: m) x = lookupAL m x from by simp [lookupAL, h2]]

theorem keysAL_insertAL {α : Type} (k : State) (v : α) : ∀ (m : List (State × α)),
    List.Perm (keysAL (insertAL k v m)) (k :: keysAL m) := by
  intro m
  induction m with
  | nil => simp [insertAL, keysAL]
  | cons e m ih =>
    simp only [insertAL]
    split_ifs with h1
    · exact List.Perm.refl _
    · exact (ih.cons e.1).trans (List.Perm.swap k e.1 _)

theorem length_insertAL {α : Type} (k : State) (v : α) : ∀ (m : List (State × α)),
    (insertAL k v m).length = m.length + 1 := by
  intro m
  induction m with
  | nil => rfl
  | cons e m ih =>
    simp only [insertAL]
    split_ifs with h1
    · simp
    · simp [ih]

/- ### Toolkit: the folds used by `addNeighbors` -/

theorem mem_foldl_insertSt (x : State) : ∀ (l acc : List State),
    (x ∈ l.foldl (fun acc n => insertSt n acc) acc ↔ x ∈ acc ∨ x ∈ l) := by
  intro l
  induction l with
  | nil => simp
  | cons n l ih =>
    intro acc
    simp only [List.foldl_cons]
    rw [ih]
    rw [mem_insertSt]
    simp [List.mem_cons]
    tauto

theorem mem_foldl_guard (P : State → Prop) [DecidablePred P] (x : State) : ∀ (l acc : List State),
    (x ∈ l.foldl (fun acc n => if P n then acc else insertSt n acc) acc ↔
      x ∈ acc ∨ (x ∈ l ∧ ¬ P x)) := by
  intro l
  induction l with
  | nil => simp
  | cons n l ih =>
    intro acc
    simp only [List.foldl_cons]
    rw [ih]
    by_cases hP : P n
    · rw [if_pos hP]
      simp only [List.mem_cons]
      constructor
      · rintro (h | h)
        · exact Or.inl h
        · exact Or.inr ⟨Or.inr h.1, h.2⟩
      · rintro (h | ⟨h1 | h1, h2⟩)
        · exact Or.inl h
        · exact absurd (h1 ▸ hP) h2
        · exact Or.inr ⟨h1, h2⟩
    · rw [if_neg hP]
      rw [mem_insertSt]
      simp only [List.mem_cons]
      constructor
      · rintro ((rfl | h) | h)
        · exact Or.inr ⟨Or.inl rfl, hP⟩
        · exact Or.inl h
        · exact Or.inr ⟨Or.inr h.1, h.2⟩
      · rintro (h | ⟨h1 | h1, h2⟩)
        · exact Or.inl (Or.inr h)
        · exact Or.inl (Or.inl h1)
        · exact Or.inr ⟨h1, h2⟩

theorem sorted_foldl_guard (P : State → Prop) [DecidablePred P] : ∀ (l acc : List State),
    List.Pairwise (fun a b => stateLt a b = true) acc →
    List.Pairwise (fun a b => stateLt a b = true)
      (l.foldl (fun acc n => if P n then acc else insertSt n acc) acc) := by
  intro l
  induction l with
  | nil => intro acc h; exact h
  | cons n l ih =>
    intro acc h
    simp only [List.foldl_cons]
    apply ih
    split_ifs with hP
    · exact h
    · exact insertSt_sorted h

/- ### Label-set (`GatherLabels`) properties -/

theorem mem_insertLabel {x c : Char} : ∀ {ls : List Char},
    x ∈ insertLabel c ls ↔ x = c ∨ x ∈ ls := by
  intro ls
  induction ls with
  | nil => simp [insertLabel]
  | cons l ls ih =>
    simp only [insertLabel]
    split_ifs with h1 h2
    · simp [List.mem_cons]
    · subst h2
      simp [List.mem_cons]
    · simp only [List.mem_cons, ih]
      tauto

theorem insertLabel_sorted {c : Char} : ∀ {ls : List Char},
    List.Pairwise (· < ·) ls → List.Pairwise (· < ·) (insertLabel c ls) := by
  intro ls
  induction ls with
  | nil => simp [insertLabel]
  | cons l ls ih =>
    intro h
    rcases List.pairwise_cons.mp h with ⟨hl, hls⟩
    simp only [insertLabel]
    split_ifs with h1 h2
    · refine List.pairwise_cons.mpr ⟨?_, h⟩
      intro x hx
      rcases List.mem_cons.mp hx with rfl | hx2
      · exact h1
      · exact lt_trans h1 (hl x hx2)
    · subst h2
      exact h
    · have hlc : l < c := by
        rcases lt_trichotomy c l with h3 | h3 | h3
        · exact absurd h3 h1
        · exact absurd h3 h2
        · exact h3
      refine List.pairwise_cons.mpr ⟨?_, ih hls⟩
      intro x hx
      rcases mem_insertLabel.mp hx with rfl | hx2
      · exact hlc
      · exact hl x hx2

theorem GatherLabels_go_sorted : ∀ (s : List Char) (acc : List Char),
    List.Pairwise (· < ·) acc →
    List.Pairwise (· < ·)
      (s.foldl (fun ls c => if c = ' ' then ls else insertLabel c ls) acc) := by
  intro s
  induction s with
  | nil => intro acc h; exact h
  | cons c s ih =>
    intro acc h
    simp only [List.foldl_cons]
    apply ih
    split_ifs with h1
    · exact h
    · exact insertLabel_sorted h

theorem GatherLabels_go_mem (x : Char) : ∀ (s : List Char) (acc : List Char),
    (x ∈ s.foldl (fun ls c => if c = ' ' then ls else insertLabel c ls) acc ↔
      x ∈ acc ∨ (x ∈ s ∧ x ≠ ' ')) := by
  intro s
  induction s with
  | nil => simp
  | cons c s ih =>
    intro acc
    simp only [List.foldl_cons]
    rw [ih]
    by_cases h1 : c = ' '
    · rw [if_pos h1]
      simp only [List.mem_cons]
      constructor
      · rintro (h | h)
        · exact Or.inl h
        · exact Or.inr ⟨Or.inr h.1, h.2⟩
      · rintro (h | ⟨h2 | h2, h3⟩)
        · exact Or.inl h
        · exact absurd (h2.trans h1) h3
        · exact Or.inr ⟨h2, h3⟩
    · rw [if_neg h1]
      rw [mem_insertLabel]
      simp only [List.mem_cons]
      constructor
      · rintro ((rfl | h) | h)
        · exact Or.inr ⟨Or.inl rfl, h1⟩
        · exact Or.inl h
        · exact Or.inr ⟨Or.inr h.1, h.2⟩
      · rintro (h | ⟨h2 | h2, h3⟩)
        · exact Or.inl (Or.inr h)
        · exact Or.inl (Or.inl h2)
        · exact Or.inr ⟨h2, h3⟩

theorem GatherLabels_sorted (s : State) : List.Pairwise (· < ·) (GatherLabels s) :=
  GatherLabels_go_sorted s [] (List.Pairwise.nil)

theorem mem_GatherLabels {x : Char} {s : State} :
    x ∈ GatherLabels s ↔ x ∈ s ∧ x ≠ ' ' := by
  rw [GatherLabels, GatherLabels_go_mem]
  simp

theorem space_not_mem_GatherLabels (s : State) : ' ' ∉ GatherLabels s := by
  intro h
  exact (mem_GatherLabels.mp h).2 rfl

theorem GatherLabels_chars (s : State) : ∀ c ∈ s, c = ' ' ∨ c ∈ GatherLabels s := by
  intro c hc
  by_cases h : c = ' '
  · exact Or.inl h
  · exact Or.inr (mem_GatherLabels.mpr ⟨hc, h⟩)

/- ### Sorted-chain helpers -/

theorem sorted_head_lt {l : Char} {ls : List Char}
    (h : List.Pairwise (· < ·) (l :: ls)) : ∀ x ∈ ls, l < x :=
  (List.pairwise_cons.mp h).1

theorem sorted_head_notmem {l : Char} {ls : List Char}
    (h : List.Pairwise (· < ·) (l :: ls)) : l ∉ ls := by
  intro hmem
  exact lt_irrefl l (sorted_head_lt h l hmem)

theorem sorted_suffix {pre ls : List Char}
    (h : List.Pairwise (· < ·) (pre ++ ls)) : List.Pairwise (· < ·) ls :=
  (List.pairwise_append.mp h).2.1

theorem sorted_pre_lt {pre ls : List Char}
    (h : List.Pairwise (· < ·) (pre ++ ls)) : ∀ p ∈ pre, ∀ y ∈ ls, p < y :=
  (List.pairwise_append.mp h).2.2

theorem notmem_suffix_of_lt_head {pre : List Char} {l c : Char} {ls2 : List Char}
    (h : List.Pairwise (· < ·) (pre ++ l :: ls2)) (hc : c < l) : c ∉ l :: ls2 := by
  intro hmem
  rcases List.mem_cons.mp hmem with rfl | hmem2
  · exact lt_irrefl c hc
  · exact absurd (lt_trans hc (sorted_head_lt (sorted_suffix h) c hmem2)) (lt_irrefl c)

theorem mem_tail_of_gt_head {pre : List Char} {l c : Char} {ls2 : List Char}
    (h : List.Pairwise (· < ·) (pre ++ l :: ls2)) (hmem : c ∈ pre ++ l :: ls2)
    (hc : l < c) : c ∈ ls2 := by
  rcases List.mem_append.mp hmem with h1 | h1
  · exact absurd (lt_trans hc (sorted_pre_lt h c h1 l (List.mem_cons_self _ _))) (lt_irrefl l)
  · rcases List.mem_cons.mp h1 with rfl | h2
    · exact absurd hc (lt_irrefl c)
    · exact h2

theorem pre_snoc_append {pre : List Char} {l : Char} {ls2 : List Char} :
    (pre ++ [l]) ++ ls2 = pre ++ l :: ls2 := by
  simp

/- ### Permutation-support helpers -/

theorem supp_fix {π : Equiv.Perm Char} {L : List Char}
    (hs : ∀ c, π c ≠ c → c ∈ L) {c : Char} (hc : c ∉ L) : π c = c := by
  by_contra h
  exact hc (hs c h)

theorem supp_apply_mem {π : Equiv.Perm Char} {L : List Char}
    (hs : ∀ c, π c ≠ c → c ∈ L) {c : Char} (hc : c ∈ L) : π c ∈ L := by
  by_cases h : π c = c
  · rw [h]; exact hc
  · apply hs
    intro h2
    exact h (π.injective h2)

/- ### normGo unfolding equations -/

theorem normGo_nil_labels : ∀ (fuel : Nat) (s : List Char), normGo fuel s [] = s := by
  intro fuel s
  cases fuel <;> cases s <;> rfl

theorem normGo_nil_state : ∀ (fuel : Nat) (ls : List Char), normGo fuel [] ls = [] := by
  intro fuel ls
  cases fuel <;> cases ls <;> rfl

theorem normGo_space {fuel : Nat} {c : Char} {rest : List Char} {l : Char} {ls2 : List Char}
    (h : c = ' ') :
    normGo (fuel + 1) (c :: rest) (l :: ls2) = c :: normGo fuel rest (l :: ls2) := by
  simp [normGo, h]

theorem normGo_ltBranch {fuel : Nat} {c : Char} {rest : List Char} {l : Char} {ls2 : List Char}
    (h1 : ¬ c = ' ') (h2 : c < l) :
    normGo (fuel + 1) (c :: rest) (l :: ls2) = c :: normGo fuel rest (l :: ls2) := by
  simp [normGo, h1, h2]

theorem normGo_eqBranch {fuel : Nat} {c : Char} {rest : List Char} {l : Char} {ls2 : List Char}
    (h1 : ¬ c = ' ') (h3 : c = l) :
    normGo (fuel + 1) (c :: rest) (l :: ls2) = c :: normGo fuel rest ls2 := by
  subst h3
  simp [normGo, h1, lt_irrefl]

theorem normGo_swapBranch {fuel : Nat} {c : Char} {rest : List Char} {l : Char} {ls2 : List Char}
    (h1 : ¬ c = ' ') (h2 : ¬ c < l) (h3 : ¬ c = l) :
    normGo (fuel + 1) (c :: rest) (l :: ls2) =
      l :: normGo fuel (rest.map fun x => if x = c then l else if x = l then c else x) ls2 := by
  simp [normGo, h1, h2, h3]

/- ### Map helpers -/

theorem map_ext_mem {f g : Char → Char} : ∀ (l : List Char),
    (∀ x ∈ l, f x = g x) → l.map f = l.map g := by
  intro l
  induction l with
  | nil => intro _; rfl
  | cons a l ih =>
    intro h
    simp only [List.map_cons]
    rw [h a (List.mem_cons_self _ _), ih fun x hx => h x (List.mem_cons_of_mem _ hx)]

theorem map_fix_mem {f : Char → Char} : ∀ (l : List Char),
    (∀ x ∈ l, f x = x) → l.map f = l := by
  intro l
  induction l with
  | nil => intro _; rfl
  | cons a l ih =>
    intro h
    simp only [List.map_cons]
    rw [h a (List.mem_cons_self _ _), ih fun x hx => h x (List.mem_cons_of_mem _ hx)]

/-- Normalization is a relabeling: the scanning loop rewrites the state by
applying one global permutation of the remaining labels cell-wise. -/
theorem normGo_exists_perm : ∀ (fuel : Nat) (s pre ls : List Char),
    s.length ≤ fuel →
    List.Pairwise (· < ·) (pre ++ ls) →
    (∀ c ∈ s, c = ' ' ∨ c ∈ pre ++ ls) →
    ' ' ∉ pre ++ ls →
    ∃ π : Equiv.Perm Char, (∀ c, π c ≠ c → c ∈ ls) ∧
      normGo fuel s ls = s.map (fun c => π c) := by
  intro fuel
  induction fuel with
  | zero =>
    intro s pre ls hlen _ _ _
    have hs : s = [] := List.length_eq_zero.mp (Nat.le_zero.mp hlen)
    subst hs
    exact ⟨Equiv.refl Char, fun c hc => absurd rfl hc, by rw [normGo_nil_state]; rfl⟩
  | succ fuel ih =>
    intro s pre ls hlen hsorted hchars hsp
    cases s with
    | nil =>
      exact ⟨Equiv.refl Char, fun c hc => absurd rfl hc, by rw [normGo_nil_state]; rfl⟩
    | cons c rest =>
      cases ls with
      | nil =>
        refine ⟨Equiv.refl Char, fun x hx => absurd rfl hx, ?_⟩
        rw [normGo_nil_labels]
        exact (map_fix_mem (c :: rest) fun x _ => rfl).symm
      | cons l ls2 =>
        have hlen2 : rest.length ≤ fuel := by
          simp only [List.length_cons] at hlen
          omega
        have hlne : l ≠ ' ' := by
          intro h
          exact hsp (List.mem_append.mpr (Or.inr (h ▸ List.mem_cons_self _ _)))
        by_cases hc_sp : c = ' '
        · obtain ⟨π, hπls, heq⟩ := ih rest pre (l :: ls2) hlen2 hsorted
            (fun x hx => hchars x (List.mem_cons_of_mem _ hx)) hsp
          refine ⟨π, hπls, ?_⟩
          have hπc : π c = c := by
            apply supp_fix hπls
            intro hmem
            exact hsp (List.mem_append.mpr (Or.inr (hc_sp ▸ hmem)))
          rw [normGo_space hc_sp, heq, List.map_cons, hπc]
        · by_cases hcl : c < l
          · obtain ⟨π, hπls, heq⟩ := ih rest pre (l :: ls2) hlen2 hsorted
              (fun x hx => hchars x (List.mem_cons_of_mem _ hx)) hsp
            refine ⟨π, hπls, ?_⟩
            have hπc : π c = c :=
              supp_fix hπls (notmem_suffix_of_lt_head hsorted hcl)
            rw [normGo_ltBranch hc_sp hcl, heq, List.map_cons, hπc]
          · have hsorted2 : List.Pairwise (· < ·) ((pre ++ [l]) ++ ls2) := by
              rw [pre_snoc_append]
              exact hsorted
            have hsp2 : ' ' ∉ (pre ++ [l]) ++ ls2 := by
              rw [pre_snoc_append]
              exact hsp
            by_cases hceq : c = l
            · obtain ⟨π, hπls, heq⟩ := ih rest (pre ++ [l]) ls2 hlen2 hsorted2
                (fun x hx => by
                  rw [pre_snoc_append]
                  exact hchars x (List.mem_cons_of_mem _ hx)) hsp2
              refine ⟨π, fun x hx => List.mem_cons_of_mem _ (hπls x hx), ?_⟩
              have hπc : π c = c := by
                rw [hceq]
                exact supp_fix hπls (sorted_head_notmem (sorted_suffix hsorted))
              rw [normGo_eqBranch hc_sp hceq, heq, List.map_cons, hπc]
            · -- swap branch
              have hlc : l < c := by
                rcases lt_trichotomy c l with h3 | h3 | h3
                · exact absurd h3 hcl
                · exact absurd h3 hceq
                · exact h3
              have hcls2 : c ∈ ls2 := by
                rcases hchars c (List.mem_cons_self _ _) with h3 | h3
                · exact absurd h3 hc_sp
                · exact mem_tail_of_gt_head hsorted h3 hlc
              have hswapf : (fun x => if x = c then l else if x = l then c else x) =
                  fun x => Equiv.swap c l x := by
                funext x
                rw [Equiv.swap_apply_def]
              have hchars2 : ∀ x ∈ rest.map fun x => if x = c then l else if x = l then c else x,
                  x = ' ' ∨ x ∈ (pre ++ [l]) ++ ls2 := by
                intro x hx
                rw [pre_snoc_append]
                obtain ⟨y, hy, rfl⟩ := List.mem_map.mp hx
                by_cases hyc : y = c
                · right
                  simp only [if_pos hyc]
                  exact List.mem_append.mpr (Or.inr (List.mem_cons_self _ _))
                · by_cases hyl : y = l
                  · right
                    simp only [if_neg hyc, if_pos hyl]
                    exact List.mem_append.mpr (Or.inr (List.mem_cons_of_mem _ hcls2))
                  · simp only [if_neg hyc, if_neg hyl]
                    exact hchars y (List.mem_cons_of_mem _ hy)
              obtain ⟨τ, hτls, heq⟩ := ih
                (rest.map fun x => if x = c then l else if x = l then c else x)
                (pre ++ [l]) ls2 (by rw [List.length_map]; exact hlen2) hsorted2 hchars2 hsp2
              refine ⟨(Equiv.swap c l).trans τ, ?_, ?_⟩
              · intro x hx
                by_contra hxmem
                apply hx
                have hxl : x ≠ l := fun h => hxmem (h ▸ List.mem_cons_self _ _)
                have hxc : x ≠ c := fun h => hxmem (h ▸ List.mem_cons_of_mem _ hcls2)
                have h1 : Equiv.swap c l x = x := Equiv.swap_apply_of_ne_of_ne hxc hxl
                have h2 : τ x = x :=
                  supp_fix hτls fun h => hxmem (List.mem_cons_of_mem _ h)
                show ((Equiv.swap c l).trans τ) x = x
                rw [Equiv.trans_apply, h1, h2]
              · have hτl : τ l = l :=
                  supp_fix hτls (sorted_head_notmem (sorted_suffix hsorted))
                have hπc : ((Equiv.swap c l).trans τ) c = l := by
                  rw [Equiv.trans_apply, Equiv.swap_apply_left, hτl]
                rw [normGo_swapBranch hc_sp hcl hceq, heq, List.map_cons, hπc, hswapf,
                  List.map_map]
                refine congrArg (l :: ·) (map_ext_mem rest fun x _ => ?_)
                show τ (Equiv.swap c l x) = ((Equiv.swap c l).trans τ) x
                rw [Equiv.trans_apply]

theorem swapf_eq_swap (c l : Char) :
    (fun x => if x = c then l else if x = l then c else x) = fun x => Equiv.swap c l x := by
  funext x
  rw [Equiv.swap_apply_def]

theorem chars_map_swap {rest L : List Char} {c l : Char}
    (hchars : ∀ x ∈ rest, x = ' ' ∨ x ∈ L) (hcL : c ∈ L) (hlL : l ∈ L) :
    ∀ x ∈ rest.map fun x => if x = c then l else if x = l then c else x,
      x = ' ' ∨ x ∈ L := by
  intro x hx
  obtain ⟨y, hy, rfl⟩ := List.mem_map.mp hx
  by_cases hyc : y = c
  · right
    simp only [if_pos hyc]
    exact hlL
  · by_cases hyl : y = l
    · right
      simp only [if_neg hyc, if_pos hyl]
      exact hcL
    · simp only [if_neg hyc, if_neg hyl]
      exact hchars y hy


/-- Canonicalization confluence at the level of the scanning loop:
relabeling the state by a permutation supported on the remaining labels
does not change the result of the scan. -/
theorem normGo_map_perm : ∀ (fuel : Nat) (s pre ls : List Char) (π : Equiv.Perm Char),
    s.length ≤ fuel →
    List.Pairwise (· < ·) (pre ++ ls) →
    (∀ c ∈ s, c = ' ' ∨ c ∈ pre ++ ls) →
    ' ' ∉ pre ++ ls →
    (∀ c, π c ≠ c → c ∈ ls) →
    normGo fuel (s.map fun c => π c) ls = normGo fuel s ls := by
  intro fuel
  induction fuel with
  | zero =>
    intro s pre ls π hlen _ _ _ _
    have hs : s = [] := List.length_eq_zero.mp (Nat.le_zero.mp hlen)
    subst hs
    rfl
  | succ fuel ih =>
    intro s pre ls π hlen hsorted hchars hsp hsupp
    cases s with
    | nil => rfl
    | cons c rest =>
      cases ls with
      | nil =>
        rw [normGo_nil_labels, normGo_nil_labels]
        exact map_fix_mem _ fun x _ => supp_fix hsupp (List.not_mem_nil x)
      | cons l ls2 =>
        have hlen2 : rest.length ≤ fuel := by
          simp only [List.length_cons] at hlen
          omega
        have hlsp : l ≠ ' ' := by
          intro h
          exact hsp (List.mem_append.mpr (Or.inr (h ▸ List.mem_cons_self _ _)))
        have hsorted2 : List.Pairwise (· < ·) ((pre ++ [l]) ++ ls2) := by
          rw [pre_snoc_append]
          exact hsorted
        have hsp2 : ' ' ∉ (pre ++ [l]) ++ ls2 := by
          rw [pre_snoc_append]
          exact hsp
        have hchars_rest : ∀ x ∈ rest, x = ' ' ∨ x ∈ pre ++ l :: ls2 :=
          fun x hx => hchars x (List.mem_cons_of_mem _ hx)
        simp only [List.map_cons]
        by_cases hc_sp : c = ' '
        · have hπc : π c = c := by
            rw [hc_sp]
            exact supp_fix hsupp fun hmem => hsp (List.mem_append.mpr (Or.inr hmem))
          rw [hπc, normGo_space hc_sp, normGo_space hc_sp,
            ih rest pre (l :: ls2) π hlen2 hsorted hchars_rest hsp hsupp]
        · by_cases hcl : c < l
          · have hπc : π c = c :=
              supp_fix hsupp (notmem_suffix_of_lt_head hsorted hcl)
            rw [hπc, normGo_ltBranch hc_sp hcl, normGo_ltBranch hc_sp hcl,
              ih rest pre (l :: ls2) π hlen2 hsorted hchars_rest hsp hsupp]
          · by_cases hceq : c = l
            · subst hceq
              by_cases hπfix : π c = c
              · have hsupp2 : ∀ x, π x ≠ x → x ∈ ls2 := by
                  intro x hx
                  rcases List.mem_cons.mp (hsupp x hx) with rfl | h2
                  · exact absurd hπfix hx
                  · exact h2
                rw [hπfix, normGo_eqBranch hc_sp rfl, normGo_eqBranch hc_sp rfl,
                  ih rest (pre ++ [c]) ls2 π hlen2 hsorted2
                    (fun x hx => by rw [pre_snoc_append]; exact hchars_rest x hx) hsp2 hsupp2]
              · have hm_ls : π c ∈ c :: ls2 :=
                  supp_apply_mem hsupp (List.mem_cons_self _ _)
                have hm_ls2 : π c ∈ ls2 := by
                  rcases List.mem_cons.mp hm_ls with h2 | h2
                  · exact absurd h2 hπfix
                  · exact h2
                have hm_sp : ¬ π c = ' ' := by
                  intro h
                  exact hsp (List.mem_append.mpr (Or.inr (h ▸ hm_ls)))
                have hm_lt : ¬ π c < c := by
                  intro h
                  exact absurd (lt_trans (sorted_head_lt (sorted_suffix hsorted) _ hm_ls2) h)
                    (lt_irrefl c)
                rw [normGo_swapBranch hm_sp hm_lt hπfix, normGo_eqBranch hc_sp rfl]
                have hlist : ((rest.map fun x => π x).map
                      fun x => if x = π c then c else if x = c then π c else x) =
                    rest.map fun x => (π.trans (Equiv.swap (π c) c)) x := by
                  rw [swapf_eq_swap, List.map_map]
                  exact map_ext_mem rest fun x _ => by
                    show Equiv.swap (π c) c (π x) = (π.trans (Equiv.swap (π c) c)) x
                    rw [Equiv.trans_apply]
                rw [hlist]
                have hsupp2 : ∀ x, (π.trans (Equiv.swap (π c) c)) x ≠ x → x ∈ ls2 := by
                  intro x hx
                  by_contra hxmem
                  apply hx
                  rw [Equiv.trans_apply]
                  by_cases hxl : x = c
                  · subst hxl
                    rw [Equiv.swap_apply_left]
                  · have hxls : x ∉ c :: ls2 := by
                      intro h2
                      rcases List.mem_cons.mp h2 with h3 | h3
                      · exact hxl h3
                      · exact hxmem h3
                    have hxm : x ≠ π c := fun h2 => hxmem (h2 ▸ hm_ls2)
                    rw [supp_fix hsupp hxls, Equiv.swap_apply_of_ne_of_ne hxm hxl]
                rw [ih rest (pre ++ [c]) ls2 (π.trans (Equiv.swap (π c) c)) hlen2 hsorted2
                  (fun x hx => by rw [pre_snoc_append]; exact hchars_rest x hx) hsp2 hsupp2]
            · have hlc : l < c := by
                rcases lt_trichotomy c l with h3 | h3 | h3
                · exact absurd h3 hcl
                · exact absurd h3 hceq
                · exact h3
              have hccls2 : c ∈ ls2 := by
                rcases hchars c (List.mem_cons_self _ _) with h3 | h3
                · exact absurd h3 hc_sp
                · exact mem_tail_of_gt_head hsorted h3 hlc
              have hchars2 : ∀ x ∈ rest.map fun x => if x = c then l else if x = l then c else x,
                  x = ' ' ∨ x ∈ (pre ++ [l]) ++ ls2 := by
                intro x hx
                rw [pre_snoc_append]
                exact chars_map_swap hchars_rest
                  (List.mem_append.mpr (Or.inr (List.mem_cons_of_mem _ hccls2)))
                  (List.mem_append.mpr (Or.inr (List.mem_cons_self _ _))) x hx
              have hlen3 :
                  (rest.map fun x => if x = c then l else if x = l then c else x).length ≤ fuel := by
                rw [List.length_map]
                exact hlen2
              rw [normGo_swapBranch hc_sp hcl hceq]
              by_cases hml : π c = l
              · have hm_sp : ¬ π c = ' ' := by
                  rw [hml]
                  exact hlsp
                rw [normGo_eqBranch hm_sp hml, hml]
                have hlist : (rest.map fun x => π x) =
                    ((rest.map fun x => if x = c then l else if x = l then c else x).map
                      fun x => ((Equiv.swap c l).trans π) x) := by
                  rw [swapf_eq_swap, List.map_map]
                  exact map_ext_mem rest fun x _ => by
                    show π x = ((Equiv.swap c l).trans π) (Equiv.swap c l x)
                    rw [Equiv.trans_apply, Equiv.swap_apply_self]
                rw [hlist]
                have hsupp2 : ∀ x, ((Equiv.swap c l).trans π) x ≠ x → x ∈ ls2 := by
                  intro x hx
                  by_contra hxmem
                  apply hx
                  rw [Equiv.trans_apply]
                  by_cases hxl : x = l
                  · subst hxl
                    rw [Equiv.swap_apply_right, hml]
                  · have hxc : x ≠ c := fun h2 => hxmem (h2 ▸ hccls2)
                    have hxls : x ∉ l :: ls2 := by
                      intro h2
                      rcases List.mem_cons.mp h2 with h3 | h3
                      · exact hxl h3
                      · exact hxmem h3
                    rw [Equiv.swap_apply_of_ne_of_ne hxc hxl, supp_fix hsupp hxls]
                rw [ih (rest.map fun x => if x = c then l else if x = l then c else x)
                  (pre ++ [l]) ls2 ((Equiv.swap c l).trans π) hlen3 hsorted2 hchars2 hsp2 hsupp2]
              · have hm_ls2 : π c ∈ ls2 := by
                  rcases List.mem_cons.mp
                      (supp_apply_mem hsupp (List.mem_cons_of_mem _ hccls2)) with h2 | h2
                  · exact absurd h2 hml
                  · exact h2
                have hm_sp : ¬ π c = ' ' := by
                  intro h
                  exact hsp (List.mem_append.mpr
                    (Or.inr (h ▸ List.mem_cons_of_mem _ hm_ls2)))
                have hm_lt : ¬ π c < l := by
                  intro h
                  exact absurd (lt_trans (sorted_head_lt (sorted_suffix hsorted) _ hm_ls2) h)
                    (lt_irrefl l)
                rw [normGo_swapBranch hm_sp hm_lt hml]
                have hlist : ((rest.map fun x => π x).map
                      fun x => if x = π c then l else if x = l then π c else x) =
                    ((rest.map fun x => if x = c then l else if x = l then c else x).map
                      fun x => ((Equiv.swap c l).trans (π.trans (Equiv.swap (π c) l))) x) := by
                  rw [swapf_eq_swap, swapf_eq_swap, List.map_map, List.map_map]
                  exact map_ext_mem rest fun x _ => by
                    show Equiv.swap (π c) l (π x) =
                      ((Equiv.swap c l).trans (π.trans (Equiv.swap (π c) l))) (Equiv.swap c l x)
                    rw [Equiv.trans_apply, Equiv.trans_apply, Equiv.swap_apply_self]
                rw [hlist]
                have hsupp2 : ∀ x,
                    ((Equiv.swap c l).trans (π.trans (Equiv.swap (π c) l))) x ≠ x → x ∈ ls2 := by
                  intro x hx
                  by_contra hxmem
                  apply hx
                  rw [Equiv.trans_apply, Equiv.trans_apply]
                  by_cases hxl : x = l
                  · subst hxl
                    rw [Equiv.swap_apply_right, Equiv.swap_apply_left]
                  · have hxc : x ≠ c := fun h2 => hxmem (h2 ▸ hccls2)
                    have hxls : x ∉ l :: ls2 := by
                      intro h2
                      rcases List.mem_cons.mp h2 with h3 | h3
                      · exact hxl h3
                      · exact hxmem h3
                    have hxm : x ≠ π c := fun h2 => hxmem (h2 ▸ hm_ls2)
                    rw [Equiv.swap_apply_of_ne_of_ne hxc hxl, supp_fix hsupp hxls,
                      Equiv.swap_apply_of_ne_of_ne hxm hxl]
                rw [ih (rest.map fun x => if x = c then l else if x = l then c else x)
                  (pre ++ [l]) ls2 ((Equiv.swap c l).trans (π.trans (Equiv.swap (π c) l)))
                  hlen3 hsorted2 hchars2 hsp2 hsupp2]

theorem normGo_length : ∀ (fuel : Nat) (s ls : List Char),
    (normGo fuel s ls).length = s.length := by
  intro fuel
  induction fuel with
  | zero => intro s ls; cases s <;> cases ls <;> rfl
  | succ fuel ih =>
    intro s ls
    cases s with
    | nil => cases ls <;> rfl
    | cons c rest =>
      cases ls with
      | nil => rfl
      | cons l ls2 =>
        by_cases h1 : c = ' '
        · rw [normGo_space h1, List.length_cons, List.length_cons, ih]
        · by_cases h2 : c < l
          · rw [normGo_ltBranch h1 h2, List.length_cons, List.length_cons, ih]
          · by_cases h3 : c = l
            · rw [normGo_eqBranch h1 h3, List.length_cons, List.length_cons, ih]
            · rw [normGo_swapBranch h1 h2 h3, List.length_cons, List.length_cons, ih,
                List.length_map]

theorem Normalize_length (L : List Char) (s : State) :
    (Normalize L s).length = s.length := normGo_length s.length s L

/-- `Normalize` rewrites the state by applying a single permutation of the
label set cell-wise (empty cells are untouched since the permutation is
supported on the labels). -/
theorem Normalize_exists_perm {L : List Char} {s : State}
    (hsorted : List.Pairwise (· < ·) L)
    (hchars : ∀ c ∈ s, c = ' ' ∨ c ∈ L)
    (hsp : ' ' ∉ L) :
    ∃ π : Equiv.Perm Char, (∀ c, π c ≠ c → c ∈ L) ∧
      Normalize L s = s.map fun c => π c := by
  have h := normGo_exists_perm s.length s [] L le_rfl
  rw [List.nil_append] at h
  exact h hsorted hchars hsp

/-- `Normalize` is invariant under label permutations of the input. -/
theorem Normalize_map_perm {L : List Char} {s : State} {π : Equiv.Perm Char}
    (hsorted : List.Pairwise (· < ·) L)
    (hchars : ∀ c ∈ s, c = ' ' ∨ c ∈ L)
    (hsp : ' ' ∉ L)
    (hsupp : ∀ c, π c ≠ c → c ∈ L) :
    Normalize L (s.map fun c => π c) = Normalize L s := by
  have h := normGo_map_perm s.length s [] L π le_rfl
  rw [List.nil_append] at h
  rw [Normalize, List.length_map]
  exact h hsorted hchars hsp hsupp

theorem Normalize_idem {L : List Char} {s : State}
    (hsorted : List.Pairwise (· < ·) L)
    (hchars : ∀ c ∈ s, c = ' ' ∨ c ∈ L)
    (hsp : ' ' ∉ L) :
    Normalize L (Normalize L s) = Normalize L s := by
  obtain ⟨π, hπ, heq⟩ := Normalize_exists_perm hsorted hchars hsp
  calc Normalize L (Normalize L s) = Normalize L (s.map fun c => π c) := by rw [heq]
    _ = Normalize L s := Normalize_map_perm hsorted hchars hsp hπ

theorem Normalize_chars {L : List Char} {s : State}
    (hsorted : List.Pairwise (· < ·) L)
    (hchars : ∀ c ∈ s, c = ' ' ∨ c ∈ L)
    (hsp : ' ' ∉ L) :
    ∀ c ∈ Normalize L s, c = ' ' ∨ c ∈ L := by
  obtain ⟨π, hπ, heq⟩ := Normalize_exists_perm hsorted hchars hsp
  rw [heq]
  intro c hc
  obtain ⟨y, hy, rfl⟩ := List.mem_map.mp hc
  rcases hchars y hy with h1 | h1
  · left
    rw [h1]
    exact supp_fix hπ fun h => hsp h
  · exact Or.inr (supp_apply_mem hπ h1)

/- ### Cell updates -/

theorem getD_set (t : List Char) (i j : Nat) (x : Char) :
    (t.set i x).getD j ' ' = if j = i ∧ j < t.length then x else t.getD j ' ' := by
  by_cases hj : j < t.length
  · rw [List.getD_eq_getElem _ _ (by rw [List.length_set]; exact hj)]
    rw [List.getElem_set]
    by_cases hij : i = j
    · rw [if_pos hij, if_pos ⟨hij.symm, hj⟩]
    · rw [if_neg hij, if_neg fun h => hij h.1.symm]
      exact (List.getD_eq_getElem t ' ' hj).symm
  · rw [List.getD_eq_default _ _ (by rw [List.length_set]; exact not_lt.mp hj),
      List.getD_eq_default _ _ (not_lt.mp hj), if_neg fun h => hj h.2]

theorem foldl_set_length (x : Char) : ∀ (idx : List Nat) (t : List Char),
    (idx.foldl (fun u i => u.set i x) t).length = t.length := by
  intro idx
  induction idx with
  | nil => intro t; rfl
  | cons i idx ih =>
    intro t
    simp only [List.foldl_cons]
    rw [ih, List.length_set]

theorem foldl_set_getD (x : Char) : ∀ (idx : List Nat) (t : List Char) (j : Nat),
    (idx.foldl (fun u i => u.set i x) t).getD j ' ' =
      if j ∈ idx ∧ j < t.length then x else t.getD j ' ' := by
  intro idx
  induction idx with
  | nil =>
    intro t j
    simp
  | cons i idx ih =>
    intro t j
    simp only [List.foldl_cons]
    rw [ih, List.length_set, getD_set]
    by_cases h2 : j < t.length
    · by_cases h1 : j ∈ idx
      · rw [if_pos ⟨h1, h2⟩, if_pos ⟨List.mem_cons_of_mem _ h1, h2⟩]
      · rw [if_neg fun h => h1 h.1]
        by_cases h3 : j = i
        · rw [if_pos ⟨h3, h2⟩, if_pos ⟨by rw [h3]; exact List.mem_cons_self _ _, h2⟩]
        · rw [if_neg fun h => h3 h.1, if_neg fun h => ?_]
          rcases List.mem_cons.mp h.1 with h4 | h4
          · exact h3 h4
          · exact h1 h4
    · rw [if_neg fun h => h2 h.2, if_neg fun h => h2 h.2, if_neg fun h => h2 h.2]

theorem mem_blockIndices {s : State} {label : Char} {i : Nat} :
    i ∈ blockIndices s label ↔ i < s.length ∧ s.getD i ' ' = label := by
  rw [blockIndices, List.mem_filter, List.mem_range, beq_iff_eq]

theorem foldl_set_move (label : Char) (d : Direction) : ∀ (idx : List Nat) (t : List Char),
    idx.foldl (fun u i => u.set (Move d i) label) t =
      (idx.map (Move d)).foldl (fun u j => u.set j label) t := by
  intro idx
  induction idx with
  | nil => intro t; rfl
  | cons i idx ih =>
    intro t
    simp only [List.foldl_cons, List.map_cons]
    exact ih _

theorem applyMove_eq (s : State) (label : Char) (d : Direction) :
    applyMove s label d =
      ((blockIndices s label).map (Move d)).foldl (fun u j => u.set j label)
        ((blockIndices s label).foldl (fun u i => u.set i ' ') s) := by
  rw [applyMove, foldl_set_move]

theorem applyMove_length (s : State) (label : Char) (d : Direction) :
    (applyMove s label d).length = s.length := by
  rw [applyMove_eq, foldl_set_length, foldl_set_length]

/-- Cell-wise description of the move construction: shifted cells get the
label, vacated cells become empty, all other cells are unchanged. -/
theorem applyMove_getD (s : State) (label : Char) (d : Direction) (j : Nat) :
    (applyMove s label d).getD j ' ' =
      if j ∈ (blockIndices s label).map (Move d) ∧ j < s.length then label
      else if j ∈ blockIndices s label then ' '
      else s.getD j ' ' := by
  rw [applyMove_eq, foldl_set_getD, foldl_set_length, foldl_set_getD]
  refine if_congr Iff.rfl rfl (if_congr ⟨fun h => h.1, fun h => ⟨h, (mem_blockIndices.mp h).1⟩⟩
    rfl rfl)

theorem canMove_iff {s : State} {label : Char} {d : Direction} :
    canMove s label d = true ↔
      ∀ i, i < s.length → s.getD i ' ' = label →
        IsEdge d i = false ∧
          (s.getD (Move d i) ' ' = ' ' ∨ s.getD (Move d i) ' ' = label) := by
  rw [canMove, List.all_eq_true]
  constructor
  · intro h i hi hlab
    have h2 := h i (mem_blockIndices.mpr ⟨hi, hlab⟩)
    simp only [Bool.and_eq_true, Bool.not_eq_true', Bool.or_eq_true, beq_iff_eq] at h2
    exact h2
  · intro h i hi
    obtain ⟨h1, h2⟩ := mem_blockIndices.mp hi
    have h3 := h i h1 h2
    simp only [Bool.and_eq_true, Bool.not_eq_true', Bool.or_eq_true, beq_iff_eq]
    exact h3

/- ### Board geometry of the four directions -/

theorem move_lt (d : Direction) (i : Nat) (h20 : i < 20) (he : IsEdge d i = false) :
    Move d i < 20 := by
  cases d <;>
    simp only [IsEdge, Move, beq_eq_false_iff_ne, decide_eq_false_iff_not, not_lt,
      gt_iff_lt] at he ⊢ <;>
    omega

theorem move_opp_move (d : Direction) (i : Nat) (he : IsEdge d i = false) :
    Move (opp d) (Move d i) = i := by
  cases d <;>
    simp only [IsEdge, Move, opp, beq_eq_false_iff_ne, decide_eq_false_iff_not, not_lt,
      gt_iff_lt] at he ⊢ <;>
    omega

theorem isEdge_opp_move (d : Direction) (i : Nat) (h20 : i < 20) (he : IsEdge d i = false) :
    IsEdge (opp d) (Move d i) = false := by
  cases d <;>
    simp only [IsEdge, Move, opp, beq_eq_false_iff_ne, decide_eq_false_iff_not, not_lt,
      gt_iff_lt] at he ⊢ <;>
    omega

/- ### Move reversibility (before canonicalization) -/

theorem blockIndices_applyMove {s : State} {label : Char} {d : Direction}
    (hlen : s.length = 20) (hlab : label ≠ ' ')
    (hcan : canMove s label d = true) {j : Nat} :
    j ∈ blockIndices (applyMove s label d) label ↔
      j ∈ (blockIndices s label).map (Move d) := by
  constructor
  · intro hj
    obtain ⟨hj1, hj2⟩ := mem_blockIndices.mp hj
    rw [applyMove_length] at hj1
    rw [applyMove_getD] at hj2
    by_cases h1 : j ∈ (blockIndices s label).map (Move d) ∧ j < s.length
    · exact h1.1
    · rw [if_neg h1] at hj2
      by_cases h2 : j ∈ blockIndices s label
      · rw [if_pos h2] at hj2
        exact absurd hj2.symm hlab
      · rw [if_neg h2] at hj2
        exact absurd (mem_blockIndices.mpr ⟨hj1, hj2⟩) h2
  · intro hj
    obtain ⟨i, hi, rfl⟩ := List.mem_map.mp hj
    obtain ⟨hi_len, hi_lab⟩ := mem_blockIndices.mp hi
    have hi20 : i < 20 := hlen ▸ hi_len
    have hedge := (canMove_iff.mp hcan i hi_len hi_lab).1
    have hlt : Move d i < 20 := move_lt d i hi20 hedge
    refine mem_blockIndices.mpr ⟨?_, ?_⟩
    · rw [applyMove_length, hlen]
      exact hlt
    · rw [applyMove_getD, if_pos ⟨List.mem_map.mpr ⟨i, hi, rfl⟩, by rw [hlen]; exact hlt⟩]

theorem canMove_reverse {s : State} {label : Char} {d : Direction}
    (hlen : s.length = 20) (hlab : label ≠ ' ')
    (hcan : canMove s label d = true) :
    canMove (applyMove s label d) label (opp d) = true := by
  rw [canMove_iff]
  intro j hj hlabj
  have hjmem : j ∈ blockIndices (applyMove s label d) label :=
    mem_blockIndices.mpr ⟨hj, hlabj⟩
  rw [blockIndices_applyMove hlen hlab hcan] at hjmem
  obtain ⟨i, hi, rfl⟩ := List.mem_map.mp hjmem
  obtain ⟨hi_len, hi_lab⟩ := mem_blockIndices.mp hi
  have hi20 : i < 20 := hlen ▸ hi_len
  have hedge := (canMove_iff.mp hcan i hi_len hi_lab).1
  constructor
  · exact isEdge_opp_move d i hi20 hedge
  · rw [move_opp_move d i hedge, applyMove_getD]
    by_cases h1 : i ∈ (blockIndices s label).map (Move d) ∧ i < s.length
    · rw [if_pos h1]
      right
      rfl
    · rw [if_neg h1, if_pos hi]
      left
      rfl

theorem ext_getD {s t : List Char} (hlen : s.length = t.length)
    (h : ∀ j, j < s.length → s.getD j ' ' = t.getD j ' ') : s = t := by
  apply List.ext_getElem hlen
  intro i h1 h2
  rw [← List.getD_eq_getElem s ' ' h1, ← List.getD_eq_getElem t ' ' h2]
  exact h i h1

theorem applyMove_reverse {s : State} {label : Char} {d : Direction}
    (hlen : s.length = 20) (hlab : label ≠ ' ')
    (hcan : canMove s label d = true) :
    applyMove (applyMove s label d) label (opp d) = s := by
  have hedge_of : ∀ i ∈ blockIndices s label, IsEdge d i = false := fun i hi =>
    (canMove_iff.mp hcan i (mem_blockIndices.mp hi).1 (mem_blockIndices.mp hi).2).1
  have hmemmap : ∀ x, x ∈ (blockIndices (applyMove s label d) label).map (Move (opp d)) ↔
      x ∈ blockIndices s label := by
    intro x
    rw [List.mem_map]
    constructor
    · rintro ⟨y, hy, rfl⟩
      rw [blockIndices_applyMove hlen hlab hcan] at hy
      obtain ⟨i, hi, rfl⟩ := List.mem_map.mp hy
      rw [move_opp_move d i (hedge_of i hi)]
      exact hi
    · intro hx
      refine ⟨Move d x, ?_, ?_⟩
      · rw [blockIndices_applyMove hlen hlab hcan]
        exact List.mem_map.mpr ⟨x, hx, rfl⟩
      · exact move_opp_move d x (hedge_of x hx)
  apply ext_getD
  · rw [applyMove_length, applyMove_length]
  · intro j hj
    rw [applyMove_length, applyMove_length, hlen] at hj
    rw [applyMove_getD]
    by_cases h1 : j ∈ blockIndices s label
    · rw [if_pos ⟨(hmemmap j).mpr h1, by rw [applyMove_length, hlen]; exact hj⟩]
      exact (mem_blockIndices.mp h1).2.symm
    · rw [if_neg fun h => h1 ((hmemmap j).mp h.1)]
      by_cases h2 : j ∈ blockIndices (applyMove s label d) label
      · rw [if_pos h2]
        have h3 := h2
        rw [blockIndices_applyMove hlen hlab hcan] at h3
        obtain ⟨i, hi, rfl⟩ := List.mem_map.mp h3
        obtain ⟨hi_len, hi_lab⟩ := mem_blockIndices.mp hi
        rcases (canMove_iff.mp hcan i hi_len hi_lab).2 with h4 | h4
        · exact h4.symm
        · exact absurd (mem_blockIndices.mpr ⟨hlen ▸ hj, h4⟩) h1
      · rw [if_neg h2, applyMove_getD,
          if_neg fun h => h2 ((blockIndices_applyMove hlen hlab hcan).mpr h.1),
          if_neg h1]

/- ### Moves commute with relabeling -/

theorem getD_map_sp {f : Char → Char} (hf : f ' ' = ' ') (s : List Char) (i : Nat) :
    (s.map f).getD i ' ' = f (s.getD i ' ') := by
  by_cases h : i < s.length
  · rw [List.getD_eq_getElem _ _ (by rw [List.length_map]; exact h),
      List.getD_eq_getElem _ _ h]
    exact List.getElem_map f
  · rw [List.getD_eq_default _ _ (by rw [List.length_map]; exact not_lt.mp h),
      List.getD_eq_default _ _ (not_lt.mp h), hf]

theorem beq_map_perm (π : Equiv.Perm Char) (a b : Char) : (π a == π b) = (a == b) := by
  cases h : a == b with
  | true =>
    rw [beq_iff_eq] at h
    subst h
    exact beq_self_eq_true _
  | false =>
    rw [beq_eq_false_iff_ne] at h
    exact beq_eq_false_iff_ne.mpr fun hh => h (π.injective hh)

theorem blockIndices_map (π : Equiv.Perm Char) (hsp : π ' ' = ' ') (s : State) (label : Char) :
    blockIndices (s.map fun c => π c) (π label) = blockIndices s label := by
  rw [blockIndices, blockIndices, List.length_map]
  apply List.filter_congr
  intro i _
  rw [getD_map_sp hsp]
  exact beq_map_perm π _ _

theorem all_congr_mem {α : Type} {p q : α → Bool} : ∀ (l : List α),
    (∀ x ∈ l, p x = q x) → l.all p = l.all q := by
  intro l
  induction l with
  | nil => intro _; rfl
  | cons a l ih =>
    intro h
    simp only [List.all_cons]
    rw [h a (List.mem_cons_self _ _), ih fun x hx => h x (List.mem_cons_of_mem _ hx)]

theorem canMove_map (π : Equiv.Perm Char) (hsp : π ' ' = ' ') (s : State) (label : Char)
    (d : Direction) :
    canMove (s.map fun c => π c) (π label) d = canMove s label d := by
  have h1 : ∀ a : Char, (π a == ' ') = (a == ' ') := by
    intro a
    cases h : a == ' ' with
    | true =>
      rw [beq_iff_eq] at h
      subst h
      rw [hsp, beq_self_eq_true]
    | false =>
      rw [beq_eq_false_iff_ne] at h
      apply beq_eq_false_iff_ne.mpr
      intro hh
      rw [← hsp] at hh
      exact h (π.injective hh)
  rw [canMove, canMove, blockIndices_map π hsp]
  apply all_congr_mem
  intro i _
  rw [getD_map_sp hsp, h1 _, beq_map_perm π]

theorem foldl_set_map (f : Char → Char) (x y : Char) (hxy : f x = y) : ∀ (idx : List Nat)
    (t : List Char),
    idx.foldl (fun u i => u.set i y) (t.map f) = (idx.foldl (fun u i => u.set i x) t).map f := by
  intro idx
  induction idx with
  | nil => intro t; rfl
  | cons i idx ih =>
    intro t
    simp only [List.foldl_cons]
    have h2 : (t.map f).set i y = (t.set i x).map f := by
      rw [List.map_set, hxy]
    rw [h2, ih]

theorem applyMove_map (π : Equiv.Perm Char) (hsp : π ' ' = ' ') (s : State) (label : Char)
    (d : Direction) :
    applyMove (s.map fun c => π c) (π label) d = (applyMove s label d).map fun c => π c := by
  rw [applyMove_eq, applyMove_eq, blockIndices_map π hsp,
    foldl_set_map (fun c => π c) ' ' ' ' hsp,
    foldl_set_map (fun c => π c) label (π label) rfl]

/- ### Moves stay within the label set -/

theorem mem_foldl_set {x v : Char} : ∀ (idx : List Nat) (t : List Char),
    x ∈ idx.foldl (fun u i => u.set i v) t → x = v ∨ x ∈ t := by
  intro idx
  induction idx with
  | nil => intro t h; exact Or.inr h
  | cons i idx ih =>
    intro t h
    simp only [List.foldl_cons] at h
    rcases ih _ h with h1 | h1
    · exact Or.inl h1
    · rcases List.mem_or_eq_of_mem_set h1 with h2 | h2
      · exact Or.inr h2
      · exact Or.inl h2

theorem applyMove_chars {s : State} {label : Char} {d : Direction} {L : List Char}
    (hchars : ∀ c ∈ s, c = ' ' ∨ c ∈ L) (hlabL : label ∈ L) :
    ∀ c ∈ applyMove s label d, c = ' ' ∨ c ∈ L := by
  intro c hc
  rw [applyMove_eq] at hc
  rcases mem_foldl_set _ _ hc with h1 | h1
  · exact Or.inr (h1 ▸ hlabL)
  · rcases mem_foldl_set _ _ h1 with h2 | h2
    · exact Or.inl h2
    · exact hchars c h2

/- ### Generated successors -/

theorem mem_moveTargets {labels : List Char} {s t : State} :
    t ∈ moveTargets labels s ↔
      ∃ label ∈ labels, ∃ d : Direction, canMove s label d = true ∧
        t = Normalize labels (applyMove s label d) := by
  rw [moveTargets]
  constructor
  · intro h
    obtain ⟨label, hlab, h2⟩ := List.mem_flatMap.mp h
    obtain ⟨d, _, h3⟩ := List.mem_filterMap.mp h2
    by_cases hcm : canMove s label d = true
    · rw [if_pos hcm] at h3
      injection h3 with h3
      exact ⟨label, hlab, d, hcm, h3.symm⟩
    · rw [if_neg hcm] at h3
      exact Option.noConfusion h3
  · rintro ⟨label, hlab, d, hcm, rfl⟩
    apply List.mem_flatMap.mpr
    refine ⟨label, hlab, ?_⟩
    apply List.mem_filterMap.mpr
    refine ⟨d, ?_, ?_⟩
    · cases d <;> simp [dirs]
    · rw [if_pos hcm]

/-- Basic facts about a generated successor: it has 20 cells, uses only
the label set, and is already canonical. -/
theorem moveTargets_props {labels : List Char} {s t : State}
    (hsorted : List.Pairwise (· < ·) labels) (hsp : ' ' ∉ labels)
    (hchars : ∀ c ∈ s, c = ' ' ∨ c ∈ labels)
    (hlen : s.length = 20)
    (ht : t ∈ moveTargets labels s) :
    t.length = 20 ∧ (∀ c ∈ t, c = ' ' ∨ c ∈ labels) ∧ Normalize labels t = t := by
  obtain ⟨label, hlab, d, hcm, rfl⟩ := mem_moveTargets.mp ht
  have hchars2 : ∀ c ∈ applyMove s label d, c = ' ' ∨ c ∈ labels :=
    applyMove_chars hchars hlab
  refine ⟨?_, Normalize_chars hsorted hchars2 hsp, Normalize_idem hsorted hchars2 hsp⟩
  rw [Normalize_length, applyMove_length, hlen]

/-- Reversibility of a canonicalized move: the block that moved (under its
new name, the image of its old label under the relabeling that
canonicalization applied) can slide back, and canonicalizing the result
recovers the canonical form of the original state. -/
theorem move_reversible {labels : List Char} {s : State} {label : Char} {d : Direction}
    (hsorted : List.Pairwise (· < ·) labels) (hsp : ' ' ∉ labels)
    (hlen : s.length = 20)
    (hchars : ∀ c ∈ s, c = ' ' ∨ c ∈ labels)
    (hlab : label ∈ labels)
    (hcan : canMove s label d = true) :
    ∃ label2 ∈ labels,
      canMove (Normalize labels (applyMove s label d)) label2 (opp d) = true ∧
        Normalize labels (applyMove (Normalize labels (applyMove s label d)) label2 (opp d)) =
          Normalize labels s := by
  have hlabsp : label ≠ ' ' := fun h => hsp (h ▸ hlab)
  have hchars2 : ∀ c ∈ applyMove s label d, c = ' ' ∨ c ∈ labels :=
    applyMove_chars hchars hlab
  obtain ⟨π, hπsupp, hπeq⟩ := Normalize_exists_perm hsorted hchars2 hsp
  have hπsp : π ' ' = ' ' := supp_fix hπsupp hsp
  refine ⟨π label, supp_apply_mem hπsupp hlab, ?_, ?_⟩
  · rw [hπeq, canMove_map π hπsp]
    exact canMove_reverse hlen hlabsp hcan
  · rw [hπeq, applyMove_map π hπsp, applyMove_reverse hlen hlabsp hcan]
    exact Normalize_map_perm hsorted hchars hsp hπsupp

/-- Reversibility at the successor-list level: if `t` is a generated
successor of the canonical state `s`, then `s` is a generated successor
of `t`. -/
theorem moveTargets_reverse {labels : List Char} {s t : State}
    (hsorted : List.Pairwise (· < ·) labels) (hsp : ' ' ∉ labels)
    (hlen : s.length = 20)
    (hchars : ∀ c ∈ s, c = ' ' ∨ c ∈ labels)
    (hnorm : Normalize labels s = s)
    (ht : t ∈ moveTargets labels s) :
    s ∈ moveTargets labels t := by
  obtain ⟨label, hlab, d, hcm, rfl⟩ := mem_moveTargets.mp ht
  obtain ⟨label2, hlab2, hcm2, heq2⟩ :=
    move_reversible hsorted hsp hlen hchars hlab hcm
  exact mem_moveTargets.mpr ⟨label2, hlab2, opp d, hcm2, (heq2.trans hnorm).symm⟩

/- ### Graph-builder invariant -/


theorem GInv_init {labels : List Char} {s0 : State}
    (hchars : ∀ c ∈ s0, c = ' ' ∨ c ∈ labels) (hlen : s0.length = 20)
    (hnorm : Normalize labels s0 = s0) (hreach : Reach labels s0 s0) :
    GInv labels s0 [] [s0] := by
  refine ⟨List.nodup_nil, ?_, ?_, ?_, ?_, ?_, ?_, ?_, ?_, ?_, ?_, ?_, ?_, ?_⟩
  · exact List.pairwise_singleton _ _
  · intro v hv
    exact absurd hv (List.not_mem_nil v)
  · intro v ns h
    exact absurd h (by rw [show lookupAL ([] : Graph) v = none from rfl]; exact Option.noConfusion)
  · intro v hv
    exact absurd hv (List.not_mem_nil v)
  · intro v hv
    exact absurd hv (List.not_mem_nil v)
  · intro v hv
    rcases List.mem_singleton.mp hv with rfl
    exact hreach
  · intro v hv
    exact absurd hv (List.not_mem_nil v)
  · intro v hv
    rcases List.mem_singleton.mp hv with rfl
    exact hnorm
  · intro v hv
    exact absurd hv (List.not_mem_nil v)
  · intro v hv
    rcases List.mem_singleton.mp hv with rfl
    exact hchars
  · intro v hv
    exact absurd hv (List.not_mem_nil v)
  · intro v hv
    rcases List.mem_singleton.mp hv with rfl
    exact hlen
  · exact Or.inr (List.mem_singleton.mpr rfl)

theorem GInv_step {labels : List Char} {s0 : State} {g : Graph} {w : List State}
    {g2 : Graph} {w2 : List State}
    (hsorted : List.Pairwise (· < ·) labels) (hsp : ' ' ∉ labels)
    (hinv : GInv labels s0 g w)
    (hstep : addNeighbors labels g w = some (g2, w2)) :
    GInv labels s0 g2 w2 := by
  cases w with
  | nil => exact Option.noConfusion hstep
  | cons current wrest =>
    rw [addNeighbors] at hstep
    by_cases hcur : (lookupAL g current).isSome = true
    · rw [if_pos hcur] at hstep
      exact Option.noConfusion hstep
    · rw [if_neg hcur] at hstep
      injection hstep with hstep
      rw [Prod.mk.injEq] at hstep
      obtain ⟨hg2, hw2⟩ := hstep
      subst hg2
      subst hw2
      have hcur_notkey : current ∉ keysAL g := fun h => hcur (lookupAL_isSome_iff.mpr h)
      have hcur_w : current ∈ current :: wrest := List.mem_cons_self _ _
      have hcur_canon : Normalize labels current = current := hinv.canon_w current hcur_w
      have hcur_chars : ∀ c ∈ current, c = ' ' ∨ c ∈ labels := hinv.chars_w current hcur_w
      have hcur_len : current.length = 20 := hinv.len_w current hcur_w
      have hcur_reach : Reach labels s0 current := hinv.reach_w current hcur_w
      have hwrest_sorted : List.Pairwise (fun a b => stateLt a b = true) wrest :=
        (List.pairwise_cons.mp hinv.w_sorted).2
      have hcur_notw : current ∉ wrest := sorted_head_not_mem hinv.w_sorted
      have hkeys2 : ∀ x, x ∈ keysAL (insertAL current
          ((moveTargets labels current).foldl (fun acc n => insertSt n acc) []) g) ↔
          x = current ∨ x ∈ keysAL g := by
        intro x
        rw [(keysAL_insertAL current _ g).mem_iff, List.mem_cons]
      have hlook2 : ∀ x, lookupAL (insertAL current
          ((moveTargets labels current).foldl (fun acc n => insertSt n acc) []) g) x =
          if x = current then some ((moveTargets labels current).foldl
            (fun acc n => insertSt n acc) []) else lookupAL g x :=
        lookupAL_insertAL hcur_notkey
      have hnbrs : ∀ x, x ∈ (moveTargets labels current).foldl (fun acc n => insertSt n acc) [] ↔
          x ∈ moveTargets labels current := by
        intro x
        rw [mem_foldl_insertSt]
        simp
      have hw2 : ∀ x, x ∈ (moveTargets labels current).foldl
          (fun acc n => if n = current ∨ (lookupAL g n).isSome then acc else insertSt n acc)
            wrest ↔
          x ∈ wrest ∨ (x ∈ moveTargets labels current ∧
            ¬(x = current ∨ (lookupAL g x).isSome = true)) := fun x =>
        mem_foldl_guard (fun n => n = current ∨ (lookupAL g n).isSome = true) x _ _
      have htprops : ∀ t ∈ moveTargets labels current,
          t.length = 20 ∧ (∀ c ∈ t, c = ' ' ∨ c ∈ labels) ∧ Normalize labels t = t :=
        fun t ht => moveTargets_props hsorted hsp hcur_chars hcur_len ht
      refine ⟨?_, ?_, ?_, ?_, ?_, ?_, ?_, ?_, ?_, ?_, ?_, ?_, ?_, ?_⟩
      · rw [(keysAL_insertAL current _ g).nodup_iff]
        exact List.nodup_cons.mpr ⟨hcur_notkey, hinv.keys_nodup⟩
      · exact sorted_foldl_guard _ _ _ hwrest_sorted
      · intro v hv hvw2
        rcases (hw2 v).mp hvw2 with h1 | h1
        · rcases (hkeys2 v).mp hv with rfl | h2
          · exact hcur_notw h1
          · exact hinv.disj v h2 (List.mem_cons_of_mem _ h1)
        · rcases (hkeys2 v).mp hv with rfl | h2
          · exact h1.2 (Or.inl rfl)
          · exact h1.2 (Or.inr (lookupAL_isSome_iff.mpr h2))
      · intro v ns hlk x
        rw [hlook2 v] at hlk
        by_cases hvc : v = current
        · rw [if_pos hvc] at hlk
          injection hlk with hlk
          subst hlk
          rw [hnbrs x, hvc]
        · rw [if_neg hvc] at hlk
          exact hinv.adj_eq v ns hlk x
      · intro v hv t ht
        rcases (hkeys2 v).mp hv with rfl | h2
        · by_cases h3 : t = v ∨ (lookupAL g t).isSome = true
          · rcases h3 with h3 | h3
            · exact Or.inl ((hkeys2 t).mpr (Or.inl h3))
            · exact Or.inl ((hkeys2 t).mpr (Or.inr (lookupAL_isSome_iff.mp h3)))
          · exact Or.inr ((hw2 t).mpr (Or.inr ⟨ht, h3⟩))
        · rcases hinv.succ_closed v h2 t ht with h3 | h3
          · exact Or.inl ((hkeys2 t).mpr (Or.inr h3))
          · rcases List.mem_cons.mp h3 with rfl | h4
            · exact Or.inl ((hkeys2 t).mpr (Or.inl rfl))
            · exact Or.inr ((hw2 t).mpr (Or.inl h4))
      · intro v hv
        rcases (hkeys2 v).mp hv with rfl | h2
        · exact hcur_reach
        · exact hinv.reach_keys v h2
      · intro v hv
        rcases (hw2 v).mp hv with h1 | h1
        · exact hinv.reach_w v (List.mem_cons_of_mem _ h1)
        · exact Reach.step hcur_reach h1.1
      · intro v hv
        rcases (hkeys2 v).mp hv with rfl | h2
        · exact hcur_canon
        · exact hinv.canon_keys v h2
      · intro v hv
        rcases (hw2 v).mp hv with h1 | h1
        · exact hinv.canon_w v (List.mem_cons_of_mem _ h1)
        · exact (htprops v h1.1).2.2
      · intro v hv
        rcases (hkeys2 v).mp hv with rfl | h2
        · exact hcur_chars
        · exact hinv.chars_keys v h2
      · intro v hv
        rcases (hw2 v).mp hv with h1 | h1
        · exact hinv.chars_w v (List.mem_cons_of_mem _ h1)
        · exact (htprops v h1.1).2.1
      · intro v hv
        rcases (hkeys2 v).mp hv with rfl | h2
        · exact hcur_len
        · exact hinv.len_keys v h2
      · intro v hv
        rcases (hw2 v).mp hv with h1 | h1
        · exact hinv.len_w v (List.mem_cons_of_mem _ h1)
        · exact (htprops v h1.1).1
      · rcases hinv.start_mem with h1 | h1
        · exact Or.inl ((hkeys2 s0).mpr (Or.inr h1))
        · rcases List.mem_cons.mp h1 with rfl | h2
          · exact Or.inl ((hkeys2 s0).mpr (Or.inl rfl))
          · exact Or.inr ((hw2 s0).mpr (Or.inl h2))

theorem GInv_steps {labels : List Char} {s0 : State} {g : Graph} {w : List State}
    {g2 : Graph} {w2 : List State}
    (hsorted : List.Pairwise (· < ·) labels) (hsp : ' ' ∉ labels)
    (hinv : GInv labels s0 g w)
    (hsteps : GenSteps labels g w g2 w2) : GInv labels s0 g2 w2 := by
  induction hsteps with
  | refl => exact hinv
  | tail hs hstep ih => exact GInv_step hsorted hsp ih hstep

theorem GenSteps_head {labels : List Char} {g : Graph} {w : List State} {ga : Graph}
    {wa : List State} {g2 : Graph} {w2 : List State}
    (h1 : addNeighbors labels g w = some (ga, wa))
    (h2 : GenSteps labels ga wa g2 w2) : GenSteps labels g w g2 w2 := by
  induction h2 with
  | refl => exact GenSteps.tail (GenSteps.refl g w) h1
  | tail hs hstep ih => exact GenSteps.tail ih hstep

theorem genLoop_genSteps {labels : List Char} : ∀ (fuel : Nat) (g : Graph) (w : List State)
    (g2 : Graph), genLoop labels fuel g w = some g2 → GenSteps labels g w g2 [] := by
  intro fuel
  induction fuel with
  | zero =>
    intro g w g2 h
    rw [genLoop] at h
    by_cases hw : w = []
    · rw [if_pos hw] at h
      injection h with h
      subst h
      subst hw
      exact GenSteps.refl g []
    · rw [if_neg hw] at h
      exact Option.noConfusion h
  | succ fuel ih =>
    intro g w g2 h
    cases w with
    | nil =>
      have h2 : some g = some g2 := h
      injection h2 with h2
      subst h2
      exact GenSteps.refl g []
    | cons a wrest =>
      simp only [genLoop] at h
      cases ha : addNeighbors labels g (a :: wrest) with
      | none =>
        rw [ha] at h
        exact Option.noConfusion h
      | some p =>
        obtain ⟨ga, wa⟩ := p
        rw [ha] at h
        exact GenSteps_head ha (ih ga wa g2 h)

/- ### Properties of the completed graph -/

theorem lookup_of_mem_keys {α : Type} {m : List (State × α)} {v : State}
    (h : v ∈ keysAL m) : ∃ y, lookupAL m v = some y :=
  Option.isSome_iff_exists.mp (lookupAL_isSome_iff.mpr h)

theorem adjL_mem_iff {labels : List Char} {s0 : State} {g : Graph} {w : List State}
    (hinv : GInv labels s0 g w) {v : State} (hv : v ∈ keysAL g) (x : State) :
    x ∈ adjL g v ↔ x ∈ moveTargets labels v := by
  obtain ⟨ns, hns⟩ := lookup_of_mem_keys hv
  rw [adjL, hns, Option.getD_some]
  exact hinv.adj_eq v ns hns x

theorem adjL_not_key {g : Graph} {v : State} (h : v ∉ keysAL g) : adjL g v = [] := by
  rw [adjL, lookupAL_none_iff.mpr h]
  rfl

theorem GInv_closed {labels : List Char} {s0 : State} {g : Graph}
    (hinv : GInv labels s0 g []) :
    ∀ v ∈ keysAL g, ∀ t ∈ moveTargets labels v, t ∈ keysAL g := by
  intro v hv t ht
  rcases hinv.succ_closed v hv t ht with h | h
  · exact h
  · exact absurd h (List.not_mem_nil t)

theorem GInv_keys_reach {labels : List Char} {s0 : State} {g : Graph}
    (hinv : GInv labels s0 g []) :
    ∀ v, v ∈ keysAL g ↔ Reach labels s0 v := by
  intro v
  constructor
  · exact hinv.reach_keys v
  · intro h
    induction h with
    | base =>
      rcases hinv.start_mem with h1 | h1
      · exact h1
      · exact absurd h1 (List.not_mem_nil _)
    | step hr ht ih => exact GInv_closed hinv _ ih _ ht

theorem GInv_sym {labels : List Char} {s0 : State} {g : Graph}
    (hsorted : List.Pairwise (· < ·) labels) (hsp : ' ' ∉ labels)
    (hinv : GInv labels s0 g []) :
    ∀ a b, b ∈ adjL g a → a ∈ adjL g b := by
  intro a b hb
  by_cases ha : a ∈ keysAL g
  · have hbm : b ∈ moveTargets labels a := (adjL_mem_iff hinv ha b).mp hb
    have hbk : b ∈ keysAL g := GInv_closed hinv a ha b hbm
    have ham : a ∈ moveTargets labels b :=
      moveTargets_reverse hsorted hsp (hinv.len_keys a ha) (hinv.chars_keys a ha)
        (hinv.canon_keys a ha) hbm
    exact (adjL_mem_iff hinv hbk a).mpr ham
  · rw [adjL_not_key ha] at hb
    exact absurd hb (List.not_mem_nil b)

theorem GenerateGraph_inv {initial : State} {fuel : Nat} {g : Graph}
    (hlen : initial.length = 20)
    (h : genLoop (GatherLabels initial) fuel []
      [Normalize (GatherLabels initial) initial] = some g) :
    GInv (GatherLabels initial) (Normalize (GatherLabels initial) initial) g [] := by
  have hsorted := GatherLabels_sorted initial
  have hsp := space_not_mem_GatherLabels initial
  have hchars := GatherLabels_chars initial
  apply GInv_steps hsorted hsp
    (GInv_init (Normalize_chars hsorted hchars hsp)
      (by rw [Normalize_length]; exact hlen)
      (Normalize_idem hsorted hchars hsp) Reach.base)
  exact genLoop_genSteps fuel _ _ g h

/- ### Solver invariants -/



theorem pairwise_of_rel {α : Type} (R : α → α → Prop) (h : ∀ a b, R a b) :
    ∀ l : List α, List.Pairwise R l := by
  intro l
  induction l with
  | nil => exact List.Pairwise.nil
  | cons a l ih => exact List.pairwise_cons.mpr ⟨fun b _ => h a b, ih⟩

theorem MInv_hi {g : Graph} {u : State} {D : State → Nat} {sol : SolMap} {q : List State}
    (m : MInv g u D sol q) : ∀ v ∈ keysAL sol, D v ≤ D u + 1 := by
  intro v hv
  by_cases hq : v ∈ q
  · exact m.q_hi v hq
  · by_cases hu : v = u
    · rw [hu]
      omega
    · have := m.proc_below v hv hq hu
      omega

theorem MInv_to_BInv {g : Graph} {u : State} {D : State → Nat} {sol : SolMap} {q : List State}
    (m : MInv g u D sol q) (hcov : ∀ x ∈ adjL g u, x ∈ keysAL sol) : BInv g D sol q := by
  refine ⟨m.dom_nodup, m.dom_sub, m.goal_in, m.q_sub, m.q_nodup, m.map_goal, m.map_step,
    m.path, m.q_mono, ?_, ?_, ?_⟩
  · intro a ha b hb
    have h1 := m.q_lo a ha
    have h2 := m.q_hi b hb
    omega
  · intro v hv hq x hx
    by_cases hu : v = u
    · subst hu
      refine ⟨hcov x hx, ?_⟩
      have := MInv_hi m x (hcov x hx)
      omega
    · exact m.proc_closed v hv hq hu x hx
  · intro v hv hq a ha
    by_cases hu : v = u
    · subst hu
      exact m.q_lo a ha
    · have h1 := m.proc_below v hv hq hu
      have h2 := m.q_lo a ha
      omega

theorem BInv_pop {g : Graph} {D : State → Nat} {sol : SolMap} {u : State} {q1 : List State}
    (b : BInv g D sol (u :: q1)) : MInv g u D sol q1 := by
  have humem : u ∈ u :: q1 := List.mem_cons_self _ _
  refine ⟨b.dom_nodup, b.dom_sub, b.goal_in,
    fun v hv => b.q_sub v (List.mem_cons_of_mem _ hv),
    (List.nodup_cons.mp b.q_nodup).2, b.q_sub u humem,
    (List.nodup_cons.mp b.q_nodup).1,
    b.map_goal, b.map_step, b.path, (List.pairwise_cons.mp b.q_mono).2, ?_, ?_, ?_, ?_⟩
  · intro a ha
    exact (List.pairwise_cons.mp b.q_mono).1 a ha
  · intro a ha
    exact b.q_width u humem a (List.mem_cons_of_mem _ ha)
  · intro v hv hq hne x hx
    refine b.proc_closed v hv ?_ x hx
    intro hvq
    rcases List.mem_cons.mp hvq with h | h
    · exact hne h
    · exact hq h
  · intro v hv hq hne
    refine b.proc_below v hv ?_ u humem
    intro hvq
    rcases List.mem_cons.mp hvq with h | h
    · exact hne h
    · exact hq h

/- ### Seeding the solver -/

theorem seedFold_mem (x : State) : ∀ (l : List State) (m : SolMap),
    (x ∈ keysAL (l.foldl
      (fun m v => if (lookupAL m v).isSome then m else insertAL v v m) m) ↔
      x ∈ keysAL m ∨ x ∈ l) := by
  intro l
  induction l with
  | nil => simp
  | cons v l ih =>
    intro m
    simp only [List.foldl_cons]
    rw [ih]
    by_cases h : (lookupAL m v).isSome = true
    · rw [if_pos h]
      constructor
      · rintro (h1 | h1)
        · exact Or.inl h1
        · exact Or.inr (List.mem_cons_of_mem _ h1)
      · rintro (h1 | h1)
        · exact Or.inl h1
        · rcases List.mem_cons.mp h1 with rfl | h2
          · exact Or.inl (lookupAL_isSome_iff.mp h)
          · exact Or.inr h2
    · rw [if_neg h]
      constructor
      · rintro (h1 | h1)
        · rcases List.mem_cons.mp ((keysAL_insertAL v v m).mem_iff.mp h1) with rfl | h2
          · exact Or.inr (List.mem_cons_self _ _)
          · exact Or.inl h2
        · exact Or.inr (List.mem_cons_of_mem _ h1)
      · rintro (h1 | h1)
        · exact Or.inl ((keysAL_insertAL v v m).mem_iff.mpr (List.mem_cons_of_mem _ h1))
        · rcases List.mem_cons.mp h1 with h2 | h2
          · exact Or.inl ((keysAL_insertAL v v m).mem_iff.mpr
              (by rw [h2]; exact List.mem_cons_self _ _))
          · exact Or.inr h2

theorem seedFold_id : ∀ (l : List State) (m : SolMap),
    (∀ k v2, lookupAL m k = some v2 → v2 = k) →
    ∀ k v2, lookupAL (l.foldl
      (fun m v => if (lookupAL m v).isSome then m else insertAL v v m) m) k = some v2 →
      v2 = k := by
  intro l
  induction l with
  | nil => intro m h; exact h
  | cons v l ih =>
    intro m h
    simp only [List.foldl_cons]
    by_cases hv : (lookupAL m v).isSome = true
    · rw [if_pos hv]
      exact ih m h
    · rw [if_neg hv]
      apply ih
      intro k v2 hk
      have hfresh : v ∉ keysAL m := fun hh => hv (lookupAL_isSome_iff.mpr hh)
      rw [lookupAL_insertAL hfresh k] at hk
      by_cases hkv : k = v
      · rw [if_pos hkv] at hk
        injection hk with hk
        rw [← hk, hkv]
      · rw [if_neg hkv] at hk
        exact h k v2 hk

theorem seedFold_nodup : ∀ (l : List State) (m : SolMap), (keysAL m).Nodup →
    (keysAL (l.foldl
      (fun m v => if (lookupAL m v).isSome then m else insertAL v v m) m)).Nodup := by
  intro l
  induction l with
  | nil => intro m h; exact h
  | cons v l ih =>
    intro m h
    simp only [List.foldl_cons]
    by_cases hv : (lookupAL m v).isSome = true
    · rw [if_pos hv]
      exact ih m h
    · rw [if_neg hv]
      apply ih
      rw [(keysAL_insertAL v v m).nodup_iff]
      exact List.nodup_cons.mpr ⟨fun hh => hv (lookupAL_isSome_iff.mpr hh), h⟩

theorem mem_solveSeeds {g : Graph} {x : State} :
    x ∈ solveSeeds g ↔ x ∈ keysAL g ∧ IsSolved x = true := by
  rw [solveSeeds, List.mem_filter]

theorem solveInit_mem {g : Graph} (x : State) :
    x ∈ keysAL (solveInit g) ↔ x ∈ solveSeeds g := by
  rw [solveInit, seedFold_mem]
  simp [keysAL]

theorem solveInit_lookup {g : Graph} {v : State} (hv : v ∈ keysAL (solveInit g)) :
    lookupAL (solveInit g) v = some v := by
  obtain ⟨y, hy⟩ := lookup_of_mem_keys hv
  have h2 := seedFold_id (solveSeeds g) []
    (fun k v2 h => Option.noConfusion h) v y (by rw [← solveInit]; exact hy)
  rw [hy, h2]

theorem BInv_init {g : Graph} (Hnodup : (keysAL g).Nodup) :
    BInv g (fun _ => 0) (solveInit g) (solveSeeds g) := by
  have hdomseed : ∀ x, x ∈ keysAL (solveInit g) ↔ x ∈ solveSeeds g := solveInit_mem
  refine ⟨?_, ?_, ?_, ?_, ?_, ?_, ?_, ?_, ?_, ?_, ?_, ?_⟩
  · exact seedFold_nodup (solveSeeds g) [] List.nodup_nil
  · intro v hv
    exact (mem_solveSeeds.mp ((hdomseed v).mp hv)).1
  · intro v hv hs
    exact (hdomseed v).mpr (mem_solveSeeds.mpr ⟨hv, hs⟩)
  · intro v hv
    exact (hdomseed v).mpr hv
  · exact Hnodup.filter _
  · intro v hv _
    exact ⟨solveInit_lookup hv, rfl⟩
  · intro v hv hks
    have := (mem_solveSeeds.mp ((hdomseed v).mp hv)).2
    rw [this] at hks
    exact Bool.noConfusion hks
  · intro v hv
    obtain ⟨h1, h2⟩ := mem_solveSeeds.mp ((hdomseed v).mp hv)
    exact PathToGoal.goal h1 h2
  · exact pairwise_of_rel _ (fun a b => le_refl 0) _
  · intro a _ b _
    omega
  · intro v hv hq
    exact absurd ((hdomseed v).mp hv) hq
  · intro v hv hq
    exact absurd ((hdomseed v).mp hv) hq

/-- Processing the neighbor list of the popped vertex `u` preserves the
fold invariant: first insertion wins, fresh neighbors are assigned to
layer `D u + 1` and pushed. -/
theorem relax_fold {g : Graph} {u : State}
    (Hsym : ∀ a b, b ∈ adjL g a → a ∈ adjL g b)
    (Hclosed : ∀ a ∈ keysAL g, ∀ b ∈ adjL g a, b ∈ keysAL g) :
    ∀ (ns : List State) (D : State → Nat) (sol : SolMap) (q : List State),
    MInv g u D sol q →
    (∀ x ∈ ns, x ∈ adjL g u) →
    (∀ x ∈ adjL g u, x ∈ ns ∨ x ∈ keysAL sol) →
    ∃ D2 : State → Nat, (∀ v ∈ keysAL sol, D2 v = D v) ∧
      MInv g u D2 (ns.foldl (relaxOne u) (sol, q)).1 (ns.foldl (relaxOne u) (sol, q)).2 ∧
      ∀ x ∈ adjL g u, x ∈ keysAL (ns.foldl (relaxOne u) (sol, q)).1 := by
  intro ns
  induction ns with
  | nil =>
    intro D sol q m hns hcov
    refine ⟨D, fun v _ => rfl, m, ?_⟩
    intro x hx
    rcases hcov x hx with h | h
    · exact absurd h (List.not_mem_nil x)
    · exact h
  | cons n ns ih =>
    intro D sol q m hns hcov
    simp only [List.foldl_cons]
    cases hlk : lookupAL sol n with
    | some w =>
      have hrelax : relaxOne u (sol, q) n = (sol, q) := by
        simp only [relaxOne, hlk]
      rw [hrelax]
      have hndom : n ∈ keysAL sol := mem_keysAL_of_lookup hlk
      refine ih D sol q m (fun x hx => hns x (List.mem_cons_of_mem _ hx)) ?_
      intro x hx
      rcases hcov x hx with h | h
      · rcases List.mem_cons.mp h with h2 | h2
        · exact Or.inr (h2 ▸ hndom)
        · exact Or.inl h2
      · exact Or.inr h
    | none =>
      have hrelax : relaxOne u (sol, q) n = (insertAL n u sol, q ++ [n]) := by
        simp only [relaxOne, hlk]
      rw [hrelax]
      have hfresh : n ∉ keysAL sol := lookupAL_none_iff.mp hlk
      have hn_adj : n ∈ adjL g u := hns n (List.mem_cons_self _ _)
      have hn_key : n ∈ keysAL g := Hclosed u (m.dom_sub u m.u_dom) n hn_adj
      have hn_unsolved : IsSolved n = false := by
        by_contra h
        have h2 : IsSolved n = true := by
          cases h3 : IsSolved n
          · exact absurd h3 h
          · rfl
        exact hfresh (m.goal_in n hn_key h2)
      have hne_un : u ≠ n := fun h => hfresh (h ▸ m.u_dom)
      have hmem2 : ∀ x, x ∈ keysAL (insertAL n u sol) ↔ x = n ∨ x ∈ keysAL sol := by
        intro x
        rw [(keysAL_insertAL n u sol).mem_iff, List.mem_cons]
      have hlook2 : ∀ x, lookupAL (insertAL n u sol) x =
          if x = n then some u else lookupAL sol x := lookupAL_insertAL hfresh
      have hnotq : n ∉ q := fun h => hfresh (m.q_sub n h)
      have hminv2 : MInv g u (fun v => if v = n then D u + 1 else D v)
          (insertAL n u sol) (q ++ [n]) := by
        refine ⟨?_, ?_, ?_, ?_, ?_, ?_, ?_, ?_, ?_, ?_, ?_, ?_, ?_, ?_, ?_⟩
        · rw [(keysAL_insertAL n u sol).nodup_iff]
          exact List.nodup_cons.mpr ⟨hfresh, m.dom_nodup⟩
        · intro v hv
          rcases (hmem2 v).mp hv with h | h
          · exact h ▸ hn_key
          · exact m.dom_sub v h
        · intro v hv hs
          exact (hmem2 v).mpr (Or.inr (m.goal_in v hv hs))
        · intro v hv
          rcases List.mem_append.mp hv with h | h
          · exact (hmem2 v).mpr (Or.inr (m.q_sub v h))
          · exact (hmem2 v).mpr (Or.inl (List.mem_singleton.mp h))
        · exact List.nodup_append.mpr
            ⟨m.q_nodup, List.nodup_singleton n, List.disjoint_singleton.mpr hnotq⟩
        · exact (hmem2 u).mpr (Or.inr m.u_dom)
        · intro h
          rcases List.mem_append.mp h with h1 | h1
          · exact m.u_notq h1
          · exact hne_un (List.mem_singleton.mp h1)
        · intro v hv hs
          have hvn : v ≠ n := by
            intro h
            rw [h, hn_unsolved] at hs
            exact Bool.noConfusion hs
          have hvsol : v ∈ keysAL sol := by
            rcases (hmem2 v).mp hv with h | h
            · exact absurd h hvn
            · exact h
          obtain ⟨h1, h2⟩ := m.map_goal v hvsol hs
          refine ⟨by rw [hlook2 v, if_neg hvn]; exact h1, ?_⟩
          show (if v = n then D u + 1 else D v) = 0
          rw [if_neg hvn]
          exact h2
        · intro v hv hks
          rcases (hmem2 v).mp hv with hvn | hvsol
          · refine ⟨u, by rw [hlook2 v, if_pos hvn], (hmem2 u).mpr (Or.inr m.u_dom),
              by rw [hvn]; exact hn_adj, ?_⟩
            show (if v = n then D u + 1 else D v) = (if u = n then D u + 1 else D u) + 1
            rw [if_pos hvn, if_neg hne_un]
          · have hvn : v ≠ n := fun h => hfresh (h ▸ hvsol)
            obtain ⟨w, h1, h2, h3, h4⟩ := m.map_step v hvsol hks
            have hwn : w ≠ n := fun h => hfresh (h ▸ h2)
            refine ⟨w, by rw [hlook2 v, if_neg hvn]; exact h1,
              (hmem2 w).mpr (Or.inr h2), h3, ?_⟩
            show (if v = n then D u + 1 else D v) = (if w = n then D u + 1 else D w) + 1
            rw [if_neg hvn, if_neg hwn]
            exact h4
        · intro v hv
          rcases (hmem2 v).mp hv with hvn | hvsol
          · show PathToGoal g v (if v = n then D u + 1 else D v)
            rw [if_pos hvn]
            have hadj2 : u ∈ adjL g v := by
              rw [hvn]
              exact Hsym u n hn_adj
            exact PathToGoal.step hadj2 (m.path u m.u_dom)
          · have hvn : v ≠ n := fun h => hfresh (h ▸ hvsol)
            show PathToGoal g v (if v = n then D u + 1 else D v)
            rw [if_neg hvn]
            exact m.path v hvsol
        · apply List.pairwise_append.mpr
          refine ⟨?_, List.pairwise_singleton _ _, ?_⟩
          · refine List.Pairwise.imp_of_mem ?_ m.q_mono
            intro a b ha hb hab
            have han : a ≠ n := fun h => hfresh (h ▸ m.q_sub a ha)
            have hbn : b ≠ n := fun h => hfresh (h ▸ m.q_sub b hb)
            show (if a = n then D u + 1 else D a) ≤ (if b = n then D u + 1 else D b)
            rw [if_neg han, if_neg hbn]
            exact hab
          · intro a ha b hb
            have hbn : b = n := List.mem_singleton.mp hb
            have han : a ≠ n := fun h => hfresh (h ▸ m.q_sub a ha)
            show (if a = n then D u + 1 else D a) ≤ (if b = n then D u + 1 else D b)
            rw [if_neg han, if_pos hbn]
            exact m.q_hi a ha
        · intro a ha
          show (if u = n then D u + 1 else D u) ≤ (if a = n then D u + 1 else D a)
          rw [if_neg hne_un]
          rcases List.mem_append.mp ha with h | h
          · have han : a ≠ n := fun hh => hfresh (hh ▸ m.q_sub a h)
            rw [if_neg han]
            exact m.q_lo a h
          · rw [if_pos (List.mem_singleton.mp h)]
            omega
        · intro a ha
          show (if a = n then D u + 1 else D a) ≤ (if u = n then D u + 1 else D u) + 1
          rw [if_neg hne_un]
          rcases List.mem_append.mp ha with h | h
          · have han : a ≠ n := fun hh => hfresh (hh ▸ m.q_sub a h)
            rw [if_neg han]
            exact m.q_hi a h
          · rw [if_pos (List.mem_singleton.mp h)]
        · intro v hv hq hne x hx
          have hvn : v ≠ n := fun h =>
            hq (List.mem_append.mpr (Or.inr (h ▸ List.mem_singleton.mpr rfl)))
          have hvsol : v ∈ keysAL sol := by
            rcases (hmem2 v).mp hv with h | h
            · exact absurd h hvn
            · exact h
          have hvq : v ∉ q := fun h => hq (List.mem_append.mpr (Or.inl h))
          obtain ⟨hx1, hx2⟩ := m.proc_closed v hvsol hvq hne x hx
          have hxn : x ≠ n := fun h => hfresh (h ▸ hx1)
          refine ⟨(hmem2 x).mpr (Or.inr hx1), ?_⟩
          show (if x = n then D u + 1 else D x) ≤ (if v = n then D u + 1 else D v) + 1
          rw [if_neg hxn, if_neg hvn]
          exact hx2
        · intro v hv hq hne
          have hvn : v ≠ n := fun h =>
            hq (List.mem_append.mpr (Or.inr (h ▸ List.mem_singleton.mpr rfl)))
          have hvsol : v ∈ keysAL sol := by
            rcases (hmem2 v).mp hv with h | h
            · exact absurd h hvn
            · exact h
          have hvq : v ∉ q := fun h => hq (List.mem_append.mpr (Or.inl h))
          show (if v = n then D u + 1 else D v) ≤ (if u = n then D u + 1 else D u)
          rw [if_neg hvn, if_neg hne_un]
          exact m.proc_below v hvsol hvq hne
      obtain ⟨D3, hagree3, hm3, hcov3⟩ := ih (fun v => if v = n then D u + 1 else D v)
        (insertAL n u sol) (q ++ [n]) hminv2
        (fun x hx => hns x (List.mem_cons_of_mem _ hx))
        (fun x hx => by
          rcases hcov x hx with h | h
          · rcases List.mem_cons.mp h with h2 | h2
            · exact Or.inr ((hmem2 x).mpr (Or.inl h2))
            · exact Or.inl h2
          · exact Or.inr ((hmem2 x).mpr (Or.inr h)))
      refine ⟨D3, ?_, hm3, hcov3⟩
      intro v hv
      have h1 : D3 v = (fun v => if v = n then D u + 1 else D v) v :=
        hagree3 v ((hmem2 v).mpr (Or.inr hv))
      rw [h1]
      show (if v = n then D u + 1 else D v) = D v
      have hvn : v ≠ n := fun h => hfresh (h ▸ hv)
      rw [if_neg hvn]

theorem solveLoop_inv {g : Graph}
    (Hsym : ∀ a b, b ∈ adjL g a → a ∈ adjL g b)
    (Hclosed : ∀ a ∈ keysAL g, ∀ b ∈ adjL g a, b ∈ keysAL g) :
    ∀ (fuel : Nat) (D : State → Nat) (sol : SolMap) (q : List State) (sol2 : SolMap),
    BInv g D sol q → solveLoop g fuel sol q = some sol2 →
    ∃ D2, BInv g D2 sol2 [] := by
  intro fuel
  induction fuel with
  | zero =>
    intro D sol q sol2 b h
    rw [solveLoop] at h
    by_cases hq : q = []
    · rw [if_pos hq] at h
      injection h with h
      subst h
      subst hq
      exact ⟨D, b⟩
    · rw [if_neg hq] at h
      exact Option.noConfusion h
  | succ fuel ih =>
    intro D sol q sol2 b h
    cases q with
    | nil =>
      have h2 : some sol = some sol2 := h
      injection h2 with h2
      subst h2
      exact ⟨D, b⟩
    | cons u q1 =>
      have hu_dom : u ∈ keysAL sol := b.q_sub u (List.mem_cons_self _ _)
      have hu_key : u ∈ keysAL g := b.dom_sub u hu_dom
      obtain ⟨ns, hns⟩ := lookup_of_mem_keys hu_key
      have hadj : adjL g u = ns := by rw [adjL, hns, Option.getD_some]
      simp only [solveLoop] at h
      rw [hns] at h
      obtain ⟨D2, hagree, hm2, hcov2⟩ := relax_fold Hsym Hclosed ns D sol q1 (BInv_pop b)
        (fun x hx => by rw [hadj]; exact hx)
        (fun x hx => Or.inl (by rw [hadj] at hx; exact hx))
      exact ih D2 _ _ sol2 (MInv_to_BInv hm2 (fun x hx => hcov2 x hx)) h

theorem Solve_inv {g : Graph}
    (Hsym : ∀ a b, b ∈ adjL g a → a ∈ adjL g b)
    (Hclosed : ∀ a ∈ keysAL g, ∀ b ∈ adjL g a, b ∈ keysAL g)
    (Hnodup : (keysAL g).Nodup) {fuel : Nat} {sol : SolMap}
    (h : Solve g fuel = some sol) :
    ∃ D, BInv g D sol [] ∧ sol.length = g.length := by
  rw [Solve] at h
  cases hl : solveLoop g fuel (solveInit g) (solveSeeds g) with
  | none =>
    rw [hl] at h
    exact Option.noConfusion h
  | some sol1 =>
    rw [hl] at h
    have h : (if sol1.length = g.length then some sol1 else none) = some sol := h
    by_cases hlen : sol1.length = g.length
    · rw [if_pos hlen] at h
      injection h with h
      subst h
      obtain ⟨D2, hb⟩ := solveLoop_inv Hsym Hclosed fuel (fun _ => 0) (solveInit g)
        (solveSeeds g) sol1 (BInv_init Hnodup) hl
      exact ⟨D2, hb, hlen⟩
    · rw [if_neg hlen] at h
      exact Option.noConfusion h

/- ### Consequences of the completed solver run -/

theorem BInv_min {g : Graph} {D : State → Nat} {sol : SolMap}
    (Hsym : ∀ a b, b ∈ adjL g a → a ∈ adjL g b)
    (b : BInv g D sol []) :
    ∀ (n : Nat) (v : State), PathToGoal g v n → v ∈ keysAL sol ∧ D v ≤ n := by
  intro n v h
  induction h with
  | goal hv hs =>
    have hdom := b.goal_in _ hv hs
    exact ⟨hdom, le_of_eq (b.map_goal _ hdom hs).2⟩
  | step hw hp ih =>
    obtain ⟨hwdom, hwD⟩ := ih
    have hv_adj := Hsym _ _ hw
    obtain ⟨h1, h2⟩ := b.proc_closed _ hwdom (List.not_mem_nil _) _ hv_adj
    exact ⟨h1, by omega⟩

theorem keys_sol_iff {g : Graph} {D : State → Nat} {sol : SolMap}
    (b : BInv g D sol []) (hlen : sol.length = g.length) :
    ∀ v, v ∈ keysAL sol ↔ v ∈ keysAL g := by
  have h1 : (keysAL sol).Nodup := b.dom_nodup
  have hsub : keysAL sol ⊆ keysAL g := fun x hx => b.dom_sub x hx
  have hlen2 : (keysAL g).length ≤ (keysAL sol).length := by
    rw [keysAL, keysAL, List.length_map, List.length_map]
    omega
  have hperm : (keysAL sol).Perm (keysAL g) :=
    List.Subperm.perm_of_length_le (List.Nodup.subperm h1 hsub) hlen2
  exact fun v => hperm.mem_iff

theorem iter_reaches {g : Graph} {D : State → Nat} {sol : SolMap}
    (b : BInv g D sol []) :
    ∀ (k : Nat) (v : State), v ∈ keysAL sol → D v = k →
      IsSolved (iterSol sol k v) = true ∧
      lookupAL sol (iterSol sol k v) = some (iterSol sol k v) ∧
      ∀ m, m < k → nextS sol (iterSol sol m v) ≠ iterSol sol m v := by
  intro k
  induction k with
  | zero =>
    intro v hv hD
    cases hs : IsSolved v with
    | true =>
      obtain ⟨h1, _⟩ := b.map_goal v hv hs
      exact ⟨hs, h1, fun m hm => absurd hm (Nat.not_lt_zero m)⟩
    | false =>
      obtain ⟨u, _, _, _, h4⟩ := b.map_step v hv hs
      omega
  | succ k ih =>
    intro v hv hD
    cases hs : IsSolved v with
    | true =>
      obtain ⟨_, h2⟩ := b.map_goal v hv hs
      omega
    | false =>
      obtain ⟨u, h1, h2, h3, h4⟩ := b.map_step v hv hs
      have hDu : D u = k := by omega
      have hnext : nextS sol v = u := by rw [nextS, h1, Option.getD_some]
      have hiter : ∀ j, iterSol sol (j + 1) v = iterSol sol j u := by
        intro j
        simp only [iterSol]
        rw [hnext]
      obtain ⟨ih1, ih2, ih3⟩ := ih u h2 hDu
      refine ⟨by rw [hiter k]; exact ih1, by rw [hiter k]; exact ih2, ?_⟩
      intro m hm
      cases m with
      | zero =>
        show nextS sol (iterSol sol 0 v) ≠ iterSol sol 0 v
        have h0 : iterSol sol 0 v = v := rfl
        rw [h0, hnext]
        intro h
        rw [h] at h4
        omega
      | succ m2 =>
        rw [hiter m2]
        exact ih3 m2 (by omega)

/- ### The claims -/

/-- C1: Canonicalization confluence — for every arrangement `s` and every
permutation `π` of the block labels of `s` (applied cell-wise to every
non-empty cell, empty cells unchanged), running `Normalize` on the
relabeled arrangement with the shared label set yields exactly the same
arrangement as running `Normalize` on `s` with that label set. -/
theorem c1_canonicalization_confluence (s : State) (π : Equiv.Perm Char)
    (hπ : ∀ c, c ∉ GatherLabels s → π c = c) :
    Normalize (GatherLabels s) (s.map fun c => if c = ' ' then ' ' else π c) =
      Normalize (GatherLabels s) s := by
  have hsupp : ∀ c, π c ≠ c → c ∈ GatherLabels s := by
    intro c hc
    by_contra h
    exact hc (hπ c h)
  have hπsp : π ' ' = ' ' := hπ ' ' (space_not_mem_GatherLabels s)
  have hmap : (s.map fun c => if c = ' ' then ' ' else π c) = s.map fun c => π c := by
    apply map_ext_mem
    intro x _
    by_cases hx : x = ' '
    · rw [if_pos hx, hx, hπsp]
    · rw [if_neg hx]
  rw [hmap]
  exact Normalize_map_perm (GatherLabels_sorted s) (GatherLabels_chars s)
    (space_not_mem_GatherLabels s) hsupp

theorem c1_witness :
    Normalize (GatherLabels c1wS) (c1wS.map fun c => if c = ' ' then ' '
      else Equiv.swap '1' '2' c) = Normalize (GatherLabels c1wS) c1wS := by
  apply c1_canonicalization_confluence c1wS (Equiv.swap '1' '2')
  intro c hc
  apply Equiv.swap_apply_of_ne_of_ne
  · intro h
    exact hc (by rw [h]; decide)
  · intro h
    exact hc (by rw [h]; decide)

/-- C2: Next-step correctness — for every vertex of the graph produced by a
terminating `GenerateGraph` run, when `Solve` succeeds, repeatedly applying
the solution map reaches a self-mapped solved vertex, and the number of
applications needed (the least iteration count at which the current state
is self-mapped) equals the shortest-path distance in the graph to the
nearest solved vertex; solved vertices need zero applications. -/
theorem c2_next_step_correctness (initial : State) (fuelG fuelS : Nat) (g : Graph)
    (sol : SolMap)
    (hlen : initial.length = 20)
    (hg : GenerateGraph initial fuelG = some g)
    (hs : Solve g fuelS = some sol) :
    ∀ v ∈ keysAL g, ∃ n : Nat,
      PathToGoal g v n ∧ (∀ m, PathToGoal g v m → n ≤ m) ∧
      IsSolved (iterSol sol n v) = true ∧
      nextS sol (iterSol sol n v) = iterSol sol n v ∧
      ∀ m, m < n → nextS sol (iterSol sol m v) ≠ iterSol sol m v := by
  have hinv := GenerateGraph_inv hlen hg
  have hsorted := GatherLabels_sorted initial
  have hsp := space_not_mem_GatherLabels initial
  have Hsym := GInv_sym hsorted hsp hinv
  have Hclosed : ∀ a ∈ keysAL g, ∀ b ∈ adjL g a, b ∈ keysAL g := by
    intro a ha b hb
    exact GInv_closed hinv a ha b ((adjL_mem_iff hinv ha b).mp hb)
  obtain ⟨D, hb, hlen2⟩ := Solve_inv Hsym Hclosed hinv.keys_nodup hs
  intro v hv
  have hvdom : v ∈ keysAL sol := (keys_sol_iff hb hlen2 v).mpr hv
  obtain ⟨h1, h2, h3⟩ := iter_reaches hb (D v) v hvdom rfl
  refine ⟨D v, hb.path v hvdom, fun m hm => (BInv_min Hsym hb m v hm).2, h1, ?_, h3⟩
  rw [nextS, h2, Option.getD_some]

theorem c2_witness : ∃ n : Nat,
    PathToGoal demoG demo0 n ∧ (∀ m, PathToGoal demoG demo0 m → n ≤ m) ∧
    IsSolved (iterSol demoSol n demo0) = true ∧
    nextS demoSol (iterSol demoSol n demo0) = iterSol demoSol n demo0 ∧
    ∀ m, m < n → nextS demoSol (iterSol demoSol m demo0) ≠ iterSol demoSol m demo0 :=
  c2_next_step_correctness demo0 15 15 demoG demoSol (by decide) (by decide) (by decide)
    demo0 (by decide)

/-- C3: Move relation — a block may slide one cell in a direction exactly
when every cell it occupies is off the board edge in that direction and
the adjacent cell holds the empty marker or the same label; the successor
built before canonicalization has the shifted cells set to the label, the
vacated cells empty, and every other cell unchanged; feasible moves are
exactly what the graph builder generates. -/
theorem c3_move_relation (s : State) (label : Char) (d : Direction) (labels : List Char)
    (hlen : s.length = 20) (hlab : label ∈ labels) :
    ((canMove s label d = true) ↔
      (∀ i, i < 20 → s.getD i ' ' = label →
        IsEdge d i = false ∧
          (s.getD (Move d i) ' ' = ' ' ∨ s.getD (Move d i) ' ' = label))) ∧
    (canMove s label d = true → ∀ j, j < 20 →
      (applyMove s label d).getD j ' ' =
        if ∃ i ∈ List.range 20, s.getD i ' ' = label ∧ j = Move d i then label
        else if s.getD j ' ' = label then ' '
        else s.getD j ' ') ∧
    (canMove s label d = true →
      Normalize labels (applyMove s label d) ∈ moveTargets labels s) := by
  refine ⟨?_, ?_, ?_⟩
  · rw [canMove_iff, hlen]
  · intro hcm j hj
    rw [applyMove_getD, hlen]
    refine if_congr ?_ rfl (if_congr ?_ rfl rfl)
    · constructor
      · rintro ⟨h1, h2⟩
        obtain ⟨i, hi, rfl⟩ := List.mem_map.mp h1
        obtain ⟨hi1, hi2⟩ := mem_blockIndices.mp hi
        exact ⟨i, List.mem_range.mpr (hlen ▸ hi1), hi2, rfl⟩
      · rintro ⟨i, hi0, hi2, rfl⟩
        have hi1 : i < 20 := List.mem_range.mp hi0
        have himem : i ∈ blockIndices s label :=
          mem_blockIndices.mpr ⟨by rw [hlen]; exact hi1, hi2⟩
        refine ⟨List.mem_map.mpr ⟨i, himem, rfl⟩, ?_⟩
        have hedge := (canMove_iff.mp hcm i (by rw [hlen]; exact hi1) hi2).1
        exact move_lt d i hi1 hedge
    · rw [mem_blockIndices, hlen]
      constructor
      · rintro ⟨_, h⟩
        exact h
      · intro h
        exact ⟨hj, h⟩
  · intro hcm
    exact mem_moveTargets.mpr ⟨label, hlab, d, hcm, rfl⟩

theorem c3_witness :
    ((canMove demo0 '1' Direction.RIGHT = true) ↔
      (∀ i, i < 20 → demo0.getD i ' ' = '1' →
        IsEdge Direction.RIGHT i = false ∧
          (demo0.getD (Move Direction.RIGHT i) ' ' = ' ' ∨
            demo0.getD (Move Direction.RIGHT i) ' ' = '1'))) ∧
    (canMove demo0 '1' Direction.RIGHT = true → ∀ j, j < 20 →
      (applyMove demo0 '1' Direction.RIGHT).getD j ' ' =
        if ∃ i ∈ List.range 20, demo0.getD i ' ' = '1' ∧ j = Move Direction.RIGHT i then '1'
        else if demo0.getD j ' ' = '1' then ' '
        else demo0.getD j ' ') ∧
    (canMove demo0 '1' Direction.RIGHT = true →
      Normalize demoL (applyMove demo0 '1' Direction.RIGHT) ∈ moveTargets demoL demo0) :=
  c3_move_relation demo0 '1' Direction.RIGHT demoL (by decide) (by decide)

/-- C4: Graph closure — in the graph returned by a terminating
`GenerateGraph` run, every canonicalized feasible one-cell slide from a
vertex is again a vertex and a member of that vertex's neighbor set, and
the vertex set is exactly the set of canonical arrangements reachable
from the canonicalized initial arrangement under the move relation. -/
theorem c4_graph_closure (initial : State) (fuel : Nat) (g : Graph)
    (hlen : initial.length = 20)
    (hg : GenerateGraph initial fuel = some g) :
    (∀ v ∈ keysAL g, ∀ t ∈ moveTargets (GatherLabels initial) v,
      t ∈ keysAL g ∧ t ∈ adjL g v) ∧
    (∀ v, v ∈ keysAL g ↔
      Reach (GatherLabels initial) (Normalize (GatherLabels initial) initial) v) := by
  have hinv := GenerateGraph_inv hlen hg
  refine ⟨?_, GInv_keys_reach hinv⟩
  intro v hv t ht
  exact ⟨GInv_closed hinv v hv t ht, (adjL_mem_iff hinv hv t).mpr ht⟩

theorem c4_witness :
    (∀ v ∈ keysAL demoG, ∀ t ∈ moveTargets (GatherLabels demo0) v,
      t ∈ keysAL demoG ∧ t ∈ adjL demoG v) ∧
    (∀ v, v ∈ keysAL demoG ↔
      Reach (GatherLabels demo0) (Normalize (GatherLabels demo0) demo0) v) :=
  c4_graph_closure demo0 15 demoG (by decide) (by decide)

/-- C5: Move reversibility and edge symmetry — if the canonical vertex `B`
arises from the canonical vertex `A` by sliding one block one cell in
direction `d` followed by canonicalization, then `A` is recovered from `B`
by sliding the corresponding block (the image of the moved block's label
under the canonicalization relabeling) one cell in the opposite direction
followed by canonicalization; consequently the neighbor relation of the
returned graph is symmetric. -/
theorem c5_move_reversibility (initial : State) (fuel : Nat) (g : Graph)
    (hlen : initial.length = 20)
    (hg : GenerateGraph initial fuel = some g) :
    (∀ A ∈ keysAL g, ∀ label ∈ GatherLabels initial, ∀ d : Direction,
      canMove A label d = true →
      ∃ label2 ∈ GatherLabels initial,
        canMove (Normalize (GatherLabels initial) (applyMove A label d)) label2
          (opp d) = true ∧
        Normalize (GatherLabels initial)
          (applyMove (Normalize (GatherLabels initial) (applyMove A label d)) label2
            (opp d)) = A) ∧
    (∀ A B, B ∈ adjL g A ↔ A ∈ adjL g B) := by
  have hinv := GenerateGraph_inv hlen hg
  have hsorted := GatherLabels_sorted initial
  have hsp := space_not_mem_GatherLabels initial
  constructor
  · intro A hA label hlab d hcm
    obtain ⟨label2, h1, h2, h3⟩ := move_reversible hsorted hsp (hinv.len_keys A hA)
      (hinv.chars_keys A hA) hlab hcm
    exact ⟨label2, h1, h2, h3.trans (hinv.canon_keys A hA)⟩
  · intro A B
    exact ⟨fun h => GInv_sym hsorted hsp hinv A B h, fun h => GInv_sym hsorted hsp hinv B A h⟩

theorem c5_witness :
    ∃ label2 ∈ GatherLabels demo0,
      canMove (Normalize (GatherLabels demo0) (applyMove demo0 '1' Direction.RIGHT)) label2
        (opp Direction.RIGHT) = true ∧
      Normalize (GatherLabels demo0)
        (applyMove (Normalize (GatherLabels demo0) (applyMove demo0 '1' Direction.RIGHT))
          label2 (opp Direction.RIGHT)) = demo0 :=
  (c5_move_reversibility demo0 15 demoG (by decide) (by decide)).1 demo0 (by decide)
    '1' (by decide) Direction.RIGHT (by decide)

/-- C6: Map completeness — on a successful run, the solution map returned
by `Solve` has exactly one entry per graph vertex (its size equals the
vertex count, enforced fatally), every solved vertex maps to itself, every
unsolved vertex maps to one of its own graph neighbors (and not to
itself), and no vertex other than a solved one maps to itself. -/
theorem c6_map_completeness (initial : State) (fuelG fuelS : Nat) (g : Graph) (sol : SolMap)
    (hlen : initial.length = 20)
    (hg : GenerateGraph initial fuelG = some g)
    (hs : Solve g fuelS = some sol) :
    sol.length = g.length ∧
    (∀ v, v ∈ keysAL sol ↔ v ∈ keysAL g) ∧
    (∀ v ∈ keysAL g, IsSolved v = true → lookupAL sol v = some v) ∧
    (∀ v ∈ keysAL g, IsSolved v = false →
      ∃ u, lookupAL sol v = some u ∧ u ∈ adjL g v ∧ u ≠ v) ∧
    (∀ v, lookupAL sol v = some v → IsSolved v = true) := by
  have hinv := GenerateGraph_inv hlen hg
  have hsorted := GatherLabels_sorted initial
  have hsp := space_not_mem_GatherLabels initial
  have Hsym := GInv_sym hsorted hsp hinv
  have Hclosed : ∀ a ∈ keysAL g, ∀ b ∈ adjL g a, b ∈ keysAL g := by
    intro a ha b hb
    exact GInv_closed hinv a ha b ((adjL_mem_iff hinv ha b).mp hb)
  obtain ⟨D, hb, hlen2⟩ := Solve_inv Hsym Hclosed hinv.keys_nodup hs
  have hkeys := keys_sol_iff hb hlen2
  refine ⟨hlen2, hkeys, ?_, ?_, ?_⟩
  · intro v hv hsv
    exact (hb.map_goal v ((hkeys v).mpr hv) hsv).1
  · intro v hv hsv
    obtain ⟨u, h1, h2, h3, h4⟩ := hb.map_step v ((hkeys v).mpr hv) hsv
    refine ⟨u, h1, Hsym u v h3, ?_⟩
    intro h
    rw [h] at h4
    omega
  · intro v hlk
    have hvdom : v ∈ keysAL sol := mem_keysAL_of_lookup hlk
    cases hsv : IsSolved v with
    | true => rfl
    | false =>
      obtain ⟨u, h1, h2, h3, h4⟩ := hb.map_step v hvdom hsv
      rw [hlk] at h1
      injection h1 with h1
      rw [h1] at h4
      omega

theorem c6_witness :
    demoSol.length = demoG.length ∧
    (∀ v, v ∈ keysAL demoSol ↔ v ∈ keysAL demoG) ∧
    (∀ v ∈ keysAL demoG, IsSolved v = true → lookupAL demoSol v = some v) ∧
    (∀ v ∈ keysAL demoG, IsSolved v = false →
      ∃ u, lookupAL demoSol v = some u ∧ u ∈ adjL demoG v ∧ u ≠ v) ∧
    (∀ v, lookupAL demoSol v = some v → IsSolved v = true) :=
  c6_map_completeness demo0 15 15 demoG demoSol (by decide) (by decide) (by decide)

/-- C7: Canonical-form invariant — at every intermediate configuration of
a `GenerateGraph` run from a properly initialized state, every vertex of
the graph so far, every member of every recorded neighbor set, and every
arrangement in the pending work-set is a fixed point of `Normalize` under
the gathered label set, even though the builder never re-canonicalizes a
state popped from the work-set. -/
theorem c7_canonical_invariant (initial : State) (g : Graph) (w : List State)
    (hlen : initial.length = 20)
    (hsteps : GenSteps (GatherLabels initial) []
      [Normalize (GatherLabels initial) initial] g w) :
    (∀ v ∈ keysAL g, Normalize (GatherLabels initial) v = v) ∧
    (∀ v ∈ w, Normalize (GatherLabels initial) v = v) ∧
    (∀ v ns, lookupAL g v = some ns → ∀ x ∈ ns,
      Normalize (GatherLabels initial) x = x) := by
  have hsorted := GatherLabels_sorted initial
  have hsp := space_not_mem_GatherLabels initial
  have hchars := GatherLabels_chars initial
  have hinv := GInv_steps hsorted hsp
    (GInv_init (Normalize_chars hsorted hchars hsp)
      (by rw [Normalize_length]; exact hlen)
      (Normalize_idem hsorted hchars hsp) Reach.base) hsteps
  refine ⟨hinv.canon_keys, hinv.canon_w, ?_⟩
  intro v ns hns x hx
  have hvkey : v ∈ keysAL g := mem_keysAL_of_lookup hns
  have hxmem : x ∈ moveTargets (GatherLabels initial) v := (hinv.adj_eq v ns hns x).mp hx
  exact (moveTargets_props hsorted hsp (hinv.chars_keys v hvkey)
    (hinv.len_keys v hvkey) hxmem).2.2

theorem c7_witness :
    (∀ v ∈ keysAL demoG, Normalize (GatherLabels demo0) v = v) ∧
    (∀ v ∈ ([] : List State), Normalize (GatherLabels demo0) v = v) ∧
    (∀ v ns, lookupAL demoG v = some ns → ∀ x ∈ ns,
      Normalize (GatherLabels demo0) x = x) :=
  c7_canonical_invariant demo0 demoG [] (by decide)
    (genLoop_genSteps 15 [] [Normalize (GatherLabels demo0) demo0] demoG (by decide))

/-- C8: In the model, calling `Print` with an initial arrangement that is
not a key of the solution map produces no defined output at all (the
lookup fails, where the C++ performs an unchecked dereference of the end
iterator): the empty board is not a key of the demo solution map and
`Print` on it yields `none` for every fuel. -/
theorem c8_print_missing_lookup :
    lookupAL demoSol (List.replicate 20 ' ') = none ∧
    ∀ fuel : Nat, Print (List.replicate 20 ' ') demoSol fuel = none := by
  have hlk : lookupAL demoSol (List.replicate 20 ' ') = none := by decide
  refine ⟨hlk, ?_⟩
  intro fuel
  cases fuel with
  | zero => rfl
  | succ n =>
    show printGo demoSol (n + 1) (List.replicate 20 ' ') = none
    simp only [printGo, hlk]

/-- C9: Expansion uniqueness — at every intermediate configuration of a
`GenerateGraph` run from a properly initialized state, the head of a
nonempty work-set is never already a vertex of the graph, so the insertion
performed on pop succeeds and the fatal `assert(success)` never fires:
`addNeighbors` cannot return the failure value. -/
theorem c9_assert_never_fires (initial : State) (g : Graph) (w : List State)
    (hlen : initial.length = 20)
    (hsteps : GenSteps (GatherLabels initial) []
      [Normalize (GatherLabels initial) initial] g w) :
    w ≠ [] → (addNeighbors (GatherLabels initial) g w).isSome = true := by
  intro hw
  have hsorted := GatherLabels_sorted initial
  have hsp := space_not_mem_GatherLabels initial
  have hchars := GatherLabels_chars initial
  have hinv := GInv_steps hsorted hsp
    (GInv_init (Normalize_chars hsorted hchars hsp)
      (by rw [Normalize_length]; exact hlen)
      (Normalize_idem hsorted hchars hsp) Reach.base) hsteps
  cases w with
  | nil => exact absurd rfl hw
  | cons current wrest =>
    have hcur : current ∉ keysAL g := fun h => hinv.disj current h (List.mem_cons_self _ _)
    have hlk : lookupAL g current = none := lookupAL_none_iff.mpr hcur
    simp [addNeighbors, hlk]

theorem c9_witness :
    (addNeighbors (GatherLabels demo0) []
      [Normalize (GatherLabels demo0) demo0]).isSome = true :=
  c9_assert_never_fires demo0 [] [Normalize (GatherLabels demo0) demo0] (by decide)
    (GenSteps.refl _ _) (by decide)

/-- C10: the hard-coded Set 1 Level 19 arrangement of `main` is already a
fixed point of `Normalize` under its gathered label set; and for any
initial arrangement with that fixed-point property, a terminating
`GenerateGraph` run followed by a successful `Solve` yields a solution map
in which the raw (un-normalized) initial arrangement is a key, so the
first lookup of `Print` succeeds. -/
theorem c10_initial_fixed_point :
    Normalize (GatherLabels l19) l19 = l19 ∧
    ∀ (initial : State) (fuelG fuelS : Nat) (g : Graph) (sol : SolMap),
      initial.length = 20 →
      Normalize (GatherLabels initial) initial = initial →
      GenerateGraph initial fuelG = some g →
      Solve g fuelS = some sol →
      (lookupAL sol initial).isSome = true := by
  constructor
  · decide
  · intro initial fuelG fuelS g sol hlen hfix hg hs
    have hinv := GenerateGraph_inv hlen hg
    have hsorted := GatherLabels_sorted initial
    have hsp := space_not_mem_GatherLabels initial
    have Hsym := GInv_sym hsorted hsp hinv
    have Hclosed : ∀ a ∈ keysAL g, ∀ b ∈ adjL g a, b ∈ keysAL g := by
      intro a ha b hb
      exact GInv_closed hinv a ha b ((adjL_mem_iff hinv ha b).mp hb)
    obtain ⟨D, hb, hlen2⟩ := Solve_inv Hsym Hclosed hinv.keys_nodup hs
    have hs0 : Normalize (GatherLabels initial) initial ∈ keysAL g := by
      rcases hinv.start_mem with h | h
      · exact h
      · exact absurd h (List.not_mem_nil _)
    rw [hfix] at hs0
    exact lookupAL_isSome_iff.mpr ((keys_sol_iff hb hlen2 initial).mpr hs0)

theorem c10_witness : (lookupAL demoSol demo0).isSome = true :=
  c10_initial_fixed_point.2 demo0 15 15 demoG demoSol (by decide) (by decide)
    (by decide) (by decide)
